import Mathlib

/-!
Verification development for the Thai-checkers adversarial search engine of
this repository.  The definitions below are a shallow embedding, in Lean, of
the classes `ThaiCheckersGame`, `EvaluationFunction` and `MinimaxAIQuiescence`
from `src/training/colab_batch_final.py` (the engine the specification is
written about).  Conventions of the embedding:

* the 8x8 numpy board becomes a flat row-major `List Int` of 64 cells
  (codes 0, 1, -1, 2, -2 exactly as in the source);
* Python floats become `ℚ`: every arithmetic operation the evaluator performs
  (sums, differences, products with the literals 3.5, 1.5, 0.5, 100, ...) is
  exact in binary double precision at these magnitudes, so `ℚ` and `float`
  agree extensionally on everything the engine computes;
* `float('inf')` / `float('-inf')` become the type `XQ` (`ℚ` extended with
  two infinities);
* the ambient random stream consumed by `random.random()` inside
  `EvaluationFunction.evaluate` becomes an explicit source `src : Nat → ℚ`
  plus an index threaded through the search state; one draw is consumed per
  non-terminal evaluation, exactly where the source calls `random.random()`;
* the transposition dictionary becomes an association list read from the
  front; storing prepends, so a lookup sees the most recent binding exactly
  like a Python dict assignment;
* the in-place mutation of `game.current_player` performed by the source is
  made explicit: functions that mutate it return the successor `Game` (see
  `evaluateS`), or rebind a local copy where the source mutates a local;
* `minimax` recurses on a fuel equal to the remaining move-counter budget
  (`ThaiCheckersGame.is_game_over` is true as soon as `move_count > 100`, and
  every recursive call goes through `make_move`, which increments the
  counter, so the fuel never runs out on the paths the source can take; the
  fuel-zero fallback returns the same static evaluation the terminal branch
  returns, which is what the source computes at such states).
-/

namespace TC

/-- Board cells, row-major: cell (r, c) of the numpy array is entry r*8+c. -/
abbrev Board := List Int

/-- Game state of `ThaiCheckersGame`: board, `current_player`, `move_count`. -/
structure Game where
  board : Board
  currentPlayer : Int
  moveCount : Nat
deriving DecidableEq, Repr

/-- Moves, as in the source: ((from_row, from_col), (to_row, to_col)). -/
abbrev Move := (Int × Int) × (Int × Int)

/-- Flat index of cell (r, c); callers only use it for in-range coordinates. -/
def cellIdx (r c : Int) : Nat := (r * 8 + c).toNat

/-- Reads `board[r, c]`. -/
def cell (b : Board) (r c : Int) : Int := b.getD (cellIdx r c) 0

/-- Writes `board[r, c] = v`. -/
def setCell (b : Board) (r c : Int) (v : Int) : Board := b.set (cellIdx r c) v

/-- Bounds test `0 <= r < 8 and 0 <= c < 8` used throughout move generation. -/
def inBoard (r c : Int) : Bool := 0 ≤ r && r < 8 && 0 ≤ c && c < 8

/-- Embeds `ThaiCheckersGame.reset`: zero board, the eight pieces of each
side placed, player 1 to move, move counter 0. -/
def reset_game : Game :=
  let positions_p1 : List (Int × Int) :=
    [(0,1), (0,3), (0,5), (0,7), (1,0), (1,2), (1,4), (1,6)]
  let positions_p2 : List (Int × Int) :=
    [(6,1), (6,3), (6,5), (6,7), (7,0), (7,2), (7,4), (7,6)]
  let b0 : Board := List.replicate 64 0
  let b1 := positions_p1.foldl (fun b rc => setCell b rc.1 rc.2 1) b0
  let b2 := positions_p2.foldl (fun b rc => setCell b rc.1 rc.2 (-1)) b1
  { board := b2, currentPlayer := 1, moveCount := 0 }

/-- Embeds one direction step of `ThaiCheckersGame._get_piece_moves`: the
quiet move to (r+dr, c+dc) when empty, and the jump over an enemy piece at
(r+dr, c+dc) landing on the empty (r+2dr, c+2dc).  Returns (moves, captures)
for this direction. -/
def dirMoves (g : Game) (r c : Int) (d : Int × Int) : List Move × List Move :=
  let nr := r + d.1
  let nc := c + d.2
  let quiet : List Move :=
    if inBoard nr nc && decide (cell g.board nr nc = 0) then [((r, c), (nr, nc))] else []
  let caps : List Move :=
    if inBoard nr nc then
      let target := cell g.board nr nc
      if target ≠ 0 ∧ target * g.currentPlayer < 0 then
        let jr := nr + d.1
        let jc := nc + d.2
        if inBoard jr jc && decide (cell g.board jr jc = 0) then [((r, c), (jr, jc))] else []
      else []
    else []
  (quiet, caps)

/-- Direction list of `_get_piece_moves`: all four diagonals for a king, the
two forward diagonals of the side to move for a man. -/
def pieceDirs (g : Game) (piece : Int) : List (Int × Int) :=
  if piece.natAbs = 2 then [(1,1), (1,-1), (-1,1), (-1,-1)]
  else if g.currentPlayer = 1 then [(1,1), (1,-1)]
  else [(-1,1), (-1,-1)]

/-- Embeds `ThaiCheckersGame._get_piece_moves`: direction list by piece kind
and side to move, then the per-direction scan, accumulating (moves, captures)
in source order. -/
def get_piece_moves (g : Game) (r c : Int) (piece : Int) : List Move × List Move :=
  (pieceDirs g piece).foldl
    (fun acc d =>
      let s := dirMoves g r c d
      (acc.1 ++ s.1, acc.2 ++ s.2))
    ([], [])

/-- Row-major list of the 64 board coordinates, the iteration order of the
`for r in range(8): for c in range(8)` scans. -/
def coords : List (Int × Int) :=
  (List.range 8).flatMap (fun r => (List.range 8).map (fun c => ((r : Int), (c : Int))))

/-- Embeds the accumulation loop of `ThaiCheckersGame.get_valid_moves`: scan
all cells, skip pieces not owned by the side to move, extend the two
accumulators with each piece's (moves, captures). -/
def scanPieces (g : Game) : List Move × List Move :=
  coords.foldl
    (fun acc rc =>
      let piece := cell g.board rc.1 rc.2
      if piece * g.currentPlayer ≤ 0 then acc
      else
        let pm := get_piece_moves g rc.1 rc.2 piece
        (acc.1 ++ pm.1, acc.2 ++ pm.2))
    ([], [])

/-- Embeds `ThaiCheckersGame.get_valid_moves`: all captures of the side to
move if any exist, otherwise all quiet moves. -/
def get_valid_moves (g : Game) : List Move :=
  let s := scanPieces g
  if s.2.isEmpty then s.1 else s.2

/-- Embeds `ThaiCheckersGame.make_move`: relocate the piece, clear the jumped
cell on a row jump (midpoint by floor division, as Python // does), promote a
man reaching the far rank, bump the counter, flip the side to move.  The
source has no failure path: an empty source cell is moved like a piece. -/
def make_move (g : Game) (m : Move) : Game :=
  let fr := m.1.1
  let fc := m.1.2
  let tr := m.2.1
  let tc := m.2.2
  let piece := cell g.board fr fc
  let b1 := setCell g.board tr tc piece
  let b2 := setCell b1 fr fc 0
  let b3 :=
    if (tr - fr).natAbs > 1 then
      setCell b2 (Int.fdiv (fr + tr) 2) (Int.fdiv (fc + tc) 2) 0
    else b2
  let b4 :=
    if g.currentPlayer = 1 ∧ tr = 7 ∧ piece = 1 then setCell b3 tr tc 2
    else if g.currentPlayer = -1 ∧ tr = 0 ∧ piece = -1 then setCell b3 tr tc (-2)
    else b3
  { board := b4, currentPlayer := g.currentPlayer * (-1), moveCount := g.moveCount + 1 }

/-- Count of player-1 pieces, `np.sum(board > 0)`. -/
def piecesPos (b : Board) : Nat := b.countP (fun x => decide (0 < x))

/-- Count of player-2 pieces, `np.sum(board < 0)`. -/
def piecesNeg (b : Board) : Nat := b.countP (fun x => decide (x < 0))

/-- Embeds `ThaiCheckersGame.is_game_over`: no legal moves, or a side with no
pieces, or the move counter past 100. -/
def is_game_over (g : Game) : Bool :=
  if (get_valid_moves g).isEmpty then true
  else if piecesPos g.board = 0 || piecesNeg g.board = 0 then true
  else decide (g.moveCount > 100)

/-- Embeds `ThaiCheckersGame.get_winner`: side with pieces remaining, else
the side not to move when the mover is stuck, else 0. -/
def get_winner (g : Game) : Int :=
  if piecesPos g.board = 0 then -1
  else if piecesNeg g.board = 0 then 1
  else if (get_valid_moves g).isEmpty then -g.currentPlayer
  else 0

end TC

namespace TC

/-! Evaluation function (`EvaluationFunction` in the source). -/

/-- Named weight constants of `EvaluationFunction.WEIGHTS` (the entries the
evaluator reads). -/
def PIECE_VALUE : ℚ := 100

def KING_VALUE : ℚ := 300

def CENTER_CONTROL : ℚ := 5

def BACK_ROW_BONUS : ℚ := 10

def ENDGAME_BONUS : ℚ := 50

def CORNER_PENALTY : ℚ := -15

def EDGE_PENALTY : ℚ := -8

def ADVANCEMENT : ℚ := 12

def KING_CENTRALIZATION : ℚ := 20

def PIECE_UNDER_ATTACK : ℚ := -80

/-- Absolute value on `ℚ`, written out so that it evaluates by cases (Python
`abs` on floats). -/
def qabs (x : ℚ) : ℚ := if x < 0 then -x else x

/-- Manhattan distance of (r, c) from the board center, the float expression
`abs(r - 3.5) + abs(c - 3.5)`. -/
def center_distance (r c : Int) : ℚ := qabs ((r : ℚ) - 3.5) + qabs ((c : ℚ) - 3.5)

/-- Embeds `EvaluationFunction.get_edge_penalty`. -/
def get_edge_penalty (r c : Int) : ℚ :=
  (if r = 0 ∨ r = 7 then EDGE_PENALTY else 0) +
  (if c = 0 ∨ c = 7 then EDGE_PENALTY else 0) +
  (if (r = 0 ∨ r = 7) ∧ (c = 0 ∨ c = 7) then CORNER_PENALTY else 0)

/-- Embeds `EvaluationFunction.evaluate_material`. -/
def evaluate_material (g : Game) (p : Int) : ℚ :=
  coords.foldl
    (fun s rc =>
      let piece := cell g.board rc.1 rc.2
      if piece = 0 then s
      else
        let v := if piece.natAbs = 2 then KING_VALUE else PIECE_VALUE
        if piece * p > 0 then s + v else s - v)
    0

/-- Embeds `EvaluationFunction.evaluate_position` (men only: centralization,
edge penalty, back-row bonus). -/
def evaluate_position (g : Game) (p : Int) : ℚ :=
  coords.foldl
    (fun s rc =>
      let piece := cell g.board rc.1 rc.2
      if piece = 0 ∨ piece * p ≤ 0 then s
      else if piece.natAbs = 1 then
        s + (7 - center_distance rc.1 rc.2) * CENTER_CONTROL
          + get_edge_penalty rc.1 rc.2
          + (if (p = 1 ∧ rc.1 = 0) ∨ (p = -1 ∧ rc.1 = 7) then BACK_ROW_BONUS else 0)
      else s)
    0

/-- Embeds `EvaluationFunction.evaluate_advancement` (men only). -/
def evaluate_advancement (g : Game) (p : Int) : ℚ :=
  coords.foldl
    (fun s rc =>
      let piece := cell g.board rc.1 rc.2
      if piece = 0 ∨ piece.natAbs = 2 then s
      else if piece * p > 0 then
        if p = 1 then s + ((7 - rc.1 : Int) : ℚ) * ADVANCEMENT
        else s + ((rc.1 : Int) : ℚ) * ADVANCEMENT
      else s)
    0

/-- Embeds `EvaluationFunction.evaluate_king_position`: kings of the player,
centralization only at six or fewer total pieces, edge penalty always. -/
def evaluate_king_position (g : Game) (p : Int) : ℚ :=
  let total := g.board.countP (fun x => decide (x ≠ 0))
  coords.foldl
    (fun s rc =>
      let piece := cell g.board rc.1 rc.2
      if piece.natAbs = 2 ∧ piece * p > 0 then
        (if total ≤ 6 then
          s + (7 - center_distance rc.1 rc.2) * KING_CENTRALIZATION
        else s) + get_edge_penalty rc.1 rc.2
      else s)
    0

/-- Embeds `EvaluationFunction.evaluate_endgame`: inactive above four total
pieces; when the evaluated side leads, a bonus per extra piece minus 1.5 per
unit of summed Manhattan distance between the two sides' pieces. -/
def evaluate_endgame (g : Game) (p : Int) : ℚ :=
  let total := g.board.countP (fun x => decide (x ≠ 0))
  if total > 4 then 0
  else
    let my := g.board.countP (fun x => decide (x * p > 0))
    let opp := g.board.countP (fun x => decide (x * p < 0))
    if my > opp then
      let base := ENDGAME_BONUS * ((my : ℚ) - (opp : ℚ))
      let myPositions := coords.filter (fun rc => decide (cell g.board rc.1 rc.2 * p > 0))
      let oppPositions := coords.filter (fun rc => decide (cell g.board rc.1 rc.2 * p < 0))
      myPositions.foldl
        (fun s mine =>
          oppPositions.foldl
            (fun s2 theirs =>
              let distance := ((mine.1 - theirs.1).natAbs + (mine.2 - theirs.2).natAbs : Nat)
              s2 - (distance : ℚ) * 1.5)
            s)
        base
    else 0

/-- Tie-break jitter term of `EvaluationFunction.evaluate`: the expression
`(random.random() - 0.5) * 4` applied to one draw u of the random source. -/
def jitterOf (u : ℚ) : ℚ := (u - 0.5) * 4

/-- Scores and search bounds: `ℚ` extended with `float('-inf')` and
`float('inf')`. -/
inductive XQ where
  | ninf : XQ
  | fin (q : ℚ) : XQ
  | pinf : XQ
deriving DecidableEq, Repr

namespace XQ

/-- Ordering on extended scores (Python float comparison with infinities). -/
def le : XQ → XQ → Bool
  | ninf, _ => true
  | fin _, ninf => false
  | fin a, fin b => decide (a ≤ b)
  | fin _, pinf => true
  | pinf, pinf => true
  | pinf, _ => false

/-- Strict ordering on extended scores. -/
def lt : XQ → XQ → Bool
  | ninf, ninf => false
  | ninf, _ => true
  | fin _, ninf => false
  | fin a, fin b => decide (a < b)
  | fin _, pinf => true
  | pinf, _ => false

/-- Python `max(a, b)`: a when a >= b, else b. -/
def qmax (a b : XQ) : XQ := if le b a then a else b

/-- Python `min(a, b)`: a when a <= b, else b. -/
def qmin (a b : XQ) : XQ := if le a b then a else b

end XQ

/-- Bound kinds of a transposition entry: the strings 'exact', 'lower',
'upper' of the source. -/
inductive TTType where
  | exact : TTType
  | lower : TTType
  | upper : TTType
deriving DecidableEq, Repr

/-- Transposition entry: the dict `{'score': ..., 'depth': ..., 'type': ...}`. -/
structure TTEntry where
  score : XQ
  depth : Nat
  ttype : TTType
deriving DecidableEq, Repr

/-- Transposition key, `MinimaxAIQuiescence.get_board_key`: board bytes,
player to move, depth, maximizing flag. -/
abbrev TTKey := Board × Int × Nat × Bool

/-- Search-state record threaded through the engine: the transposition
dictionary, the next index of the ambient random stream, and a count of the
transposition lookups that returned early (instrumentation used to state
table-sensitivity results; the source's own counter is `nodes_evaluated`,
which no decision depends on). -/
structure SState where
  tt : List (TTKey × TTEntry)
  idx : Nat
  hits : Nat
deriving DecidableEq, Repr

/-- Dict read `transposition_table.get(key)`: most recent binding first. -/
def lookupTT (t : List (TTKey × TTEntry)) (k : TTKey) : Option TTEntry :=
  (t.find? (fun e => decide (e.1 = k))).map (fun e => e.2)

/-- Dict write `transposition_table[key] = entry`: prepend, so later lookups
see the newest binding, exactly as after a Python dict assignment. -/
def storeTT (t : List (TTKey × TTEntry)) (k : TTKey) (e : TTEntry) :
    List (TTKey × TTEntry) :=
  (k, e) :: t

/-- Embeds `EvaluationFunction.evaluate`, with the in-place swap of
`game.current_player` made explicit.  Returns the score, the game object as
the caller sees it after the call (the swap restored on the non-terminal
path, untouched on the terminal path), and the search state (index advanced
by the one `random.random()` draw of the non-terminal path). -/
def evaluateS (src : Nat → ℚ) (g : Game) (p : Int) (st : SState) : ℚ × Game × SState :=
  if is_game_over g then
    let w := get_winner g
    (if w = p then 5000 else if w ≠ 0 then -5000 else 0, g, st)
  else
    let s1 := evaluate_material g p + evaluate_position g p
      + evaluate_advancement g p + evaluate_king_position g p
    let g1 : Game := { g with currentPlayer := -p }
    let oppCaptures := (get_valid_moves g1).filter (fun m => (m.1.1 - m.2.1).natAbs > 1)
    let s2 := oppCaptures.foldl
      (fun s m =>
        let mr := Int.fdiv (m.1.1 + m.2.1) 2
        let mc := Int.fdiv (m.1.2 + m.2.2) 2
        let captured := cell g1.board mr mc
        if captured * p > 0 then s + PIECE_UNDER_ATTACK else s)
      s1
    let g2 : Game := { g1 with currentPlayer := g.currentPlayer }
    let s3 := s2 + evaluate_endgame g2 p + jitterOf (src st.idx)
    (s3, g2, { st with idx := st.idx + 1 })

/-! Search engine (`MinimaxAIQuiescence` in the source). -/

/-- Engine configuration: constructor arguments `depth` and `player` of
`MinimaxAIQuiescence`, the flag that enables transposition lookups (always
on in the source; switched off to state table-sensitivity results), and the
ambient random source. -/
structure AIC where
  maxDepth : Nat
  player : Int
  useTT : Bool
  src : Nat → ℚ

/-- Cap `max_quiescence_depth` set by the constructor. -/
def maxQuiescenceDepth : Nat := 4

/-- Capture test of `MinimaxAIQuiescence.filter_capture_moves` and
`order_moves`: a row or column span larger than one. -/
def isCaptureMoveB (m : Move) : Bool :=
  (m.1.1 - m.2.1).natAbs > 1 || (m.1.2 - m.2.2).natAbs > 1

/-- Embeds `MinimaxAIQuiescence.filter_capture_moves`. -/
def filter_capture_moves (moves : List Move) : List Move :=
  moves.filter isCaptureMoveB

/-- Embeds `MinimaxAIQuiescence.get_captured_piece_value`: 0 for a quiet
move or an empty midpoint, 300 for a jumped king, 100 otherwise. -/
def get_captured_piece_value (m : Move) (g : Game) : ℚ :=
  if (m.2.1 - m.1.1).natAbs ≤ 1 ∧ (m.2.2 - m.1.2).natAbs ≤ 1 then 0
  else
    let mr := Int.fdiv (m.1.1 + m.2.1) 2
    let mc := Int.fdiv (m.1.2 + m.2.2) 2
    let captured := cell g.board mr mc
    if captured = 0 then 0
    else if captured.natAbs = 2 then 300 else 100

/-- Stable insertion of a scored move into a descending-sorted list: placed
after every element of score at least its own. -/
def insertDesc (x : Move × ℚ) : List (Move × ℚ) → List (Move × ℚ)
  | [] => [x]
  | y :: ys => if x.2 > y.2 then x :: y :: ys else y :: insertDesc x ys

/-- Stable sort by score, descending: the effect of Python
`scored_moves.sort(key=lambda x: x[1], reverse=True)` (list.sort is stable,
so among equal scores the original order is kept; `insertDesc` preserves
exactly that). -/
def sortByValueDesc (l : List (Move × ℚ)) : List (Move × ℚ) :=
  l.foldl (fun acc x => insertDesc x acc) []

/-- Embeds `MinimaxAIQuiescence.order_captures_by_value`. -/
def order_captures_by_value (moves : List Move) (g : Game) : List Move :=
  (sortByValueDesc (moves.map (fun m => (m, get_captured_piece_value m g)))).map
    (fun x => x.1)

/-- Embeds the per-move score of `MinimaxAIQuiescence.order_quiet_moves`:
centralizing destination, directional advancement of the moved piece, king
bonus. -/
def quiet_move_score (m : Move) (g : Game) : ℚ :=
  let s1 := (7 - center_distance m.2.1 m.2.2) * 8
  let piece := cell g.board m.1.1 m.1.2
  let s2 := s1 + (if piece > 0 then ((m.1.1 - m.2.1 : Int) : ℚ) * 16
                  else ((m.2.1 - m.1.1 : Int) : ℚ) * 16)
  if piece.natAbs = 2 then s2 + 25 else s2

/-- Embeds `MinimaxAIQuiescence.order_quiet_moves`. -/
def order_quiet_moves (moves : List Move) (g : Game) : List Move :=
  (sortByValueDesc (moves.map (fun m => (m, quiet_move_score m g)))).map
    (fun x => x.1)

/-- Embeds `MinimaxAIQuiescence.order_moves`: captures (ordered by captured
value) before quiet moves (ordered positionally). -/
def order_moves (moves : List Move) (g : Game) : List Move :=
  order_captures_by_value (moves.filter isCaptureMoveB) g ++
    order_quiet_moves (moves.filter (fun m => !isCaptureMoveB m)) g

/-- Embeds `MinimaxAIQuiescence.move_captures_square`. -/
def move_captures_square (m : Move) (targetRow targetCol : Int) : Bool :=
  if (m.2.1 - m.1.1).natAbs ≤ 1 then false
  else decide (Int.fdiv (m.1.1 + m.2.1) 2 = targetRow) &&
    decide (Int.fdiv (m.1.2 + m.2.2) 2 = targetCol)

/-- Embeds `MinimaxAIQuiescence.count_recaptures`: apply the opponent move to
a copy, count our replies that capture the square it landed on. -/
def count_recaptures (parent : Game) (opponentMove : Move) : Nat :=
  let gc := make_move parent opponentMove
  (get_valid_moves gc).countP
    (fun mv => move_captures_square mv opponentMove.2.1 opponentMove.2.2)

/-- Embeds `MinimaxAIQuiescence.get_search_extension`: 1 for a capture just
made; else 1 when the opponent has at most one reply; else 0 unless all
replies are captures and some reply can itself be recaptured, in which case
1. -/
def get_search_extension (m : Move) (childGame : Game) : Nat :=
  if (m.1.1 - m.2.1).natAbs > 1 then 1
  else
    let oppMoves := get_valid_moves childGame
    if oppMoves.length ≤ 1 then 1
    else if !(oppMoves.all (fun om => (om.1.1 - om.2.1).natAbs > 1)) then 0
    else if oppMoves.any (fun om => 0 < count_recaptures childGame om) then 1
    else 0

/-- Embeds `MinimaxAIQuiescence.get_board_key`. -/
def get_board_key (cfg : AIC) (g : Game) (depth : Nat) (maximizing : Bool) : TTKey :=
  (g.board, if maximizing then cfg.player else -cfg.player, depth, maximizing)

/-- Next depth `max(0, depth - 1 + extension)`, computed over `Int` as in
Python and clamped at zero. -/
def depthNext (depth ext : Nat) : Nat := (max 0 ((depth : Int) - 1 + ext)).toNat

/-- Exit classification block of `MinimaxAIQuiescence.minimax`: 'upper' when
the best score is at most alpha, else 'lower' when at least beta, else
'exact' — applied by the source to the loop-final alpha and beta. -/
def tt_exit_type (best alpha beta : XQ) : TTType :=
  if XQ.le best alpha then TTType.upper
  else if XQ.le beta best then TTType.lower
  else TTType.exact

mutual

/-- Embeds `MinimaxAIQuiescence.quiescence_search`.  Total by recursion on
the quiescence budget: every recursive call raises `q` by one and the body
returns before recursing once `maxQuiescenceDepth ≤ q`. -/
def qsearchF (src : Nat → ℚ) (player : Int) (g : Game) (alpha beta : XQ)
    (maximizing : Bool) (q : Nat) (st : SState) : XQ × SState :=
  if h : maxQuiescenceDepth ≤ q then
    let e := evaluateS src g player st
    (XQ.fin e.1, e.2.2)
  else
    let e := evaluateS src g player st
    let standPat := e.1
    let st1 := e.2.2
    if maximizing ∧ XQ.le beta (XQ.fin standPat) then (beta, st1)
    else if (!maximizing) ∧ XQ.le (XQ.fin standPat) alpha then (alpha, st1)
    else
      let alpha1 := if maximizing then XQ.qmax alpha (XQ.fin standPat) else alpha
      let beta1 := if maximizing then beta else XQ.qmin beta (XQ.fin standPat)
      let g1 : Game :=
        { g with currentPlayer := if maximizing then player else -player }
      let caps := filter_capture_moves (get_valid_moves g1)
      if caps.isEmpty then (XQ.fin standPat, st1)
      else
        let ordered := order_captures_by_value caps g1
        if maximizing then
          qloopMax src player (q + 1) ordered g1 standPat alpha1 beta1 (XQ.fin standPat) st1
        else
          qloopMin src player (q + 1) ordered g1 standPat alpha1 beta1 (XQ.fin standPat) st1
termination_by (maxQuiescenceDepth - q, 1, 0)

/-- Capture loop of the maximizing branch of `quiescence_search`: delta
pruning, recursion at the raised quiescence depth `qq`, running maximum,
alpha update, cutoff on alpha >= beta. -/
def qloopMax (src : Nat → ℚ) (player : Int) (qq : Nat) (ms : List Move) (g1 : Game)
    (standPat : ℚ) (alpha beta maxEval : XQ) (st : SState) : XQ × SState :=
  match ms with
  | [] => (maxEval, st)
  | m :: rest =>
    let ownedGain := get_captured_piece_value m g1
    if XQ.lt (XQ.fin (standPat + ownedGain + 100)) alpha then
      qloopMax src player qq rest g1 standPat alpha beta maxEval st
    else
      let child := make_move g1 m
      let r := qsearchF src player child alpha beta false qq st
      let maxEval1 := XQ.qmax maxEval r.1
      let alpha1 := XQ.qmax alpha r.1
      if XQ.le beta alpha1 then (maxEval1, r.2)
      else qloopMax src player qq rest g1 standPat alpha1 beta maxEval1 r.2
termination_by (maxQuiescenceDepth - qq, 2, ms.length)

/-- Capture loop of the minimizing branch of `quiescence_search`. -/
def qloopMin (src : Nat → ℚ) (player : Int) (qq : Nat) (ms : List Move) (g1 : Game)
    (standPat : ℚ) (alpha beta minEval : XQ) (st : SState) : XQ × SState :=
  match ms with
  | [] => (minEval, st)
  | m :: rest =>
    let ownedGain := get_captured_piece_value m g1
    if XQ.lt beta (XQ.fin (standPat - ownedGain - 100)) then
      qloopMin src player qq rest g1 standPat alpha beta minEval st
    else
      let child := make_move g1 m
      let r := qsearchF src player child alpha beta true qq st
      let minEval1 := XQ.qmin minEval r.1
      let beta1 := XQ.qmin beta r.1
      if XQ.le beta1 alpha then (minEval1, r.2)
      else qloopMin src player qq rest g1 standPat alpha beta1 minEval1 r.2
termination_by (maxQuiescenceDepth - qq, 2, ms.length)

end

mutual

/-- Embeds `MinimaxAIQuiescence.minimax` on an explicit fuel: terminal test,
transposition probe with its three early returns, delegation to quiescence at
depth zero, move generation for the side given by `maximizing`, the
alpha-beta loop, and the final store with the exit classification.  The fuel
is the remaining move-counter budget (see the header note): at fuel zero the
static evaluation is returned, which is what the source computes there since
such states are terminal. -/
def minimaxF (cfg : AIC) (fuel : Nat) (g : Game) (depth : Nat) (alpha beta : XQ)
    (maximizing : Bool) (st : SState) : XQ × SState :=
  match fuel with
  | 0 =>
    let e := evaluateS cfg.src g cfg.player st
    (XQ.fin e.1, e.2.2)
  | f + 1 =>
    if is_game_over g then
      let e := evaluateS cfg.src g cfg.player st
      (XQ.fin e.1, e.2.2)
    else
      let key := get_board_key cfg g depth maximizing
      let cached := if cfg.useTT then lookupTT st.tt key else none
      match cached with
      | some entry =>
        if depth ≤ entry.depth then
          if entry.ttype = TTType.exact then
            (entry.score, { st with hits := st.hits + 1 })
          else if entry.ttype = TTType.lower ∧ XQ.le beta entry.score then
            (entry.score, { st with hits := st.hits + 1 })
          else if entry.ttype = TTType.upper ∧ XQ.le entry.score alpha then
            (entry.score, { st with hits := st.hits + 1 })
          else minimaxBody cfg f g depth alpha beta maximizing st
        else minimaxBody cfg f g depth alpha beta maximizing st
      | none => minimaxBody cfg f g depth alpha beta maximizing st
termination_by (fuel, 0, 0)

/-- Body of `minimax` past the transposition probe (the fall-through path of
the source). -/
def minimaxBody (cfg : AIC) (f : Nat) (g : Game) (depth : Nat) (alpha beta : XQ)
    (maximizing : Bool) (st : SState) : XQ × SState :=
  let key := get_board_key cfg g depth maximizing
  if depth = 0 then
    let r := qsearchF cfg.src cfg.player g alpha beta maximizing 0 st
    (r.1, { r.2 with tt := storeTT r.2.tt key ⟨r.1, depth, TTType.exact⟩ })
  else
    let g1 : Game :=
      { g with currentPlayer := if maximizing then cfg.player else -cfg.player }
    let moves := get_valid_moves g1
    if moves.isEmpty then
      let score : XQ := XQ.fin (if maximizing then -10000 else 10000)
      (score, { st with tt := storeTT st.tt key ⟨score, depth, TTType.exact⟩ })
    else
      let ordered := order_moves moves g1
      let best0 : XQ := if maximizing then XQ.ninf else XQ.pinf
      let r := mmLoop cfg f g1 depth ordered alpha beta maximizing best0 st
      let entry : TTEntry := ⟨r.1, depth, tt_exit_type r.1 r.2.1 r.2.2.1⟩
      (r.1, { r.2.2.2 with tt := storeTT r.2.2.2.tt key entry })
termination_by (f, 2, 0)

/-- Alpha-beta loop of `minimax`: each child is searched at
`max(0, depth - 1 + extension)` with the flag flipped; running best, alpha
(maximizing) or beta (minimizing) updates, break on beta <= alpha.  Returns
(best score, final alpha, final beta, state). -/
def mmLoop (cfg : AIC) (f : Nat) (g1 : Game) (depth : Nat) (ms : List Move)
    (alpha beta : XQ) (maximizing : Bool) (best : XQ) (st : SState) :
    XQ × XQ × XQ × SState :=
  match ms with
  | [] => (best, alpha, beta, st)
  | m :: rest =>
    let child := make_move g1 m
    let ext := get_search_extension m child
    let r := minimaxF cfg f child (depthNext depth ext) alpha beta (!maximizing) st
    if maximizing then
      let best1 := XQ.qmax best r.1
      let alpha1 := XQ.qmax alpha r.1
      if XQ.le beta alpha1 then (best1, alpha1, beta, r.2)
      else mmLoop cfg f g1 depth rest alpha1 beta maximizing best1 r.2
    else
      let best1 := XQ.qmin best r.1
      let beta1 := XQ.qmin beta r.1
      if XQ.le beta1 alpha then (best1, alpha, beta1, r.2)
      else mmLoop cfg f g1 depth rest alpha beta1 maximizing best1 r.2
termination_by (f, 1, ms.length)

end

/-- Fuel adequate for a search from `g`: the remaining move-counter budget. -/
def fuelOf (g : Game) : Nat := 101 - g.moveCount

/-- Embeds `MinimaxAIQuiescence.minimax` itself (fuel supplied). -/
def minimax (cfg : AIC) (g : Game) (depth : Nat) (alpha beta : XQ)
    (maximizing : Bool) (st : SState) : XQ × SState :=
  minimaxF cfg (fuelOf g) g depth alpha beta maximizing st

/-- Root loop of `MinimaxAIQuiescence.get_best_move`: every root move is
searched (no beta cutoff at the root); the strictly best score wins, ties
keep the earlier move; alpha rises to the running best. -/
def gbLoop (cfg : AIC) (g : Game) (ms : List Move) (bestMove : Move)
    (bestScore alpha beta : XQ) (st : SState) : Move × SState :=
  match ms with
  | [] => (bestMove, st)
  | m :: rest =>
    let child := make_move g m
    let ext := get_search_extension m child
    let r := minimax cfg child (depthNext cfg.maxDepth ext) alpha beta false st
    let bm := if XQ.lt bestScore r.1 then m else bestMove
    let bs := if XQ.lt bestScore r.1 then r.1 else bestScore
    let alpha1 := XQ.qmax alpha bs
    gbLoop cfg g rest bm bs alpha1 beta r.2

/-- Embeds `MinimaxAIQuiescence.get_best_move`: reset the search state,
return None with no moves and the single move when forced, otherwise run the
root loop over the ordered moves starting from the first generated move. -/
def get_best_move (cfg : AIC) (g : Game) (st0 : SState) : Option Move × SState :=
  let st : SState := { st0 with tt := [], hits := 0 }
  let moves := get_valid_moves g
  match moves with
  | [] => (none, st)
  | m0 :: rest =>
    if rest.isEmpty then (some m0, st)
    else
      let ordered := order_moves moves g
      let r := gbLoop cfg g ordered m0 XQ.ninf XQ.ninf XQ.pinf st
      (some r.1, r.2)

end TC


namespace TC

/-! Additional definitions used by the statements below: spec-side predicates
and concrete instances evaluated in counterexamples and witnesses. -/

/-- Condition under which the specification claims `get_search_extension`
grants the extra ply: the move just made was a capture, or every opponent
reply is a capture and at least one reply captures the square the move just
landed on (the piece just moved). -/
def c2_claim_grants (m : Move) (child : Game) : Bool :=
  ((m.1.1 - m.2.1).natAbs > 1) ||
    ((get_valid_moves child).all (fun om => (om.1.1 - om.2.1).natAbs > 1) &&
      (get_valid_moves child).any (fun om => move_captures_square om m.2.1 m.2.2))

/-- Position with one man of each side: player 1 at (1,2), player 2 at (7,0);
after the quiet move (1,2)-(2,3) the opponent has exactly one reply, a quiet
one. -/
def c2game : Game :=
  { board := (List.replicate 64 0).set (cellIdx 1 2) 1 |>.set (cellIdx 7 0) (-1),
    currentPlayer := 1, moveCount := 0 }

/-- Per-cell contribution of the `get_valid_moves` scan: the (moves,
captures) pair of the piece on that cell when it belongs to the side to
move, empty otherwise. -/
def pieceGen (g : Game) (rc : Int × Int) : List Move × List Move :=
  if cell g.board rc.1 rc.2 * g.currentPlayer ≤ 0 then ([], [])
  else get_piece_moves g rc.1 rc.2 (cell g.board rc.1 rc.2)

/-- Piece count of side p: cells whose piece code has the sign of p. -/
def sideCount (b : Board) (p : Int) : Nat := b.countP (fun x => decide (x * p > 0))

/-- Position with a mandatory capture: player-1 man at (2,2), player-2 man at
(3,3), landing cell (4,4) empty. -/
def captureGame : Game :=
  { board := (List.replicate 64 0).set (cellIdx 2 2) 1 |>.set (cellIdx 3 3) (-1),
    currentPlayer := 1, moveCount := 0 }

/-- Fresh search state: empty table, stream index 0, no recorded hits. -/
def stZero : SState := ⟨[], 0, 0⟩

/-- Depth-1 engine for player 1, constant-zero jitter source, table on. -/
def cfg1z : AIC := { maxDepth := 1, player := 1, useTT := true, src := fun _ => 0 }

/-- Position with a player-1 man at (3,1) and a player-2 man at (7,6). -/
def c10game : Game :=
  { board := (List.replicate 64 0).set (cellIdx 3 1) 1 |>.set (cellIdx 7 6) (-1),
    currentPlayer := 1, moveCount := 0 }

/-- Position with a player-1 man at (2,2) and a player-2 man at (5,5): a
quiet depth-1 maximizing node with two moves and no cutoff. -/
def c4game : Game :=
  { board := (List.replicate 64 0).set (cellIdx 2 2) 1 |>.set (cellIdx 5 5) (-1),
    currentPlayer := 1, moveCount := 0 }

/-- Depth-3 engine for player 1, constant-zero jitter source, table on. -/
def cfgT3 : AIC := { maxDepth := 3, player := 1, useTT := true, src := fun _ => 0 }

/-- The same engine with every transposition lookup missing. -/
def cfgF3 : AIC := { cfgT3 with useTT := false }

/-- Position with player-1 men at (1,1) and (1,5) and a player-2 man at
(5,3): a depth-3 search meets transpositions of its quiet 3-ply lines. -/
def gC5 : Game :=
  { board := (List.replicate 64 0).set (cellIdx 1 1) 1 |>.set (cellIdx 1 5) 1
      |>.set (cellIdx 5 3) (-1),
    currentPlayer := 1, moveCount := 0 }

end TC

namespace TC

def evaluateS_tt (src : Nat → ℚ) (g : Game) (p : Int) (st : SState) :
    (evaluateS src g p st).2.2.tt = st.tt := by
  unfold evaluateS
  split <;> rfl

def evaluateS_hits (src : Nat → ℚ) (g : Game) (p : Int) (st : SState) :
    (evaluateS src g p st).2.2.hits = st.hits := by
  unfold evaluateS
  split <;> rfl

mutual

/-- Proof by the quiescence recursion: quiescence never touches the
transposition table or the hit counter. -/
def qsearch_pres (src : Nat → ℚ) (player : Int) (g : Game) (alpha beta : XQ)
    (maximizing : Bool) (q : Nat) (st : SState) :
    (qsearchF src player g alpha beta maximizing q st).2.tt = st.tt ∧
      (qsearchF src player g alpha beta maximizing q st).2.hits = st.hits := by
  rw [qsearchF]
  dsimp only
  split_ifs <;>
    first
    | exact ⟨evaluateS_tt src g player st, evaluateS_hits src g player st⟩
    | exact ⟨(qloopMax_pres src player (q + 1) _ _ _ _ _ _ _).1.trans
          (evaluateS_tt src g player st),
        (qloopMax_pres src player (q + 1) _ _ _ _ _ _ _).2.trans
          (evaluateS_hits src g player st)⟩
    | exact ⟨(qloopMin_pres src player (q + 1) _ _ _ _ _ _ _).1.trans
          (evaluateS_tt src g player st),
        (qloopMin_pres src player (q + 1) _ _ _ _ _ _ _).2.trans
          (evaluateS_hits src g player st)⟩
termination_by (maxQuiescenceDepth - q, 1, 0)

/-- Loop part of `qsearch_pres`, maximizing. -/
def qloopMax_pres (src : Nat → ℚ) (player : Int) (qq : Nat) (ms : List Move)
    (g1 : Game) (standPat : ℚ) (alpha beta maxEval : XQ) (st : SState) :
    (qloopMax src player qq ms g1 standPat alpha beta maxEval st).2.tt = st.tt ∧
      (qloopMax src player qq ms g1 standPat alpha beta maxEval st).2.hits = st.hits := by
  cases ms with
  | nil => rw [qloopMax]; exact ⟨rfl, rfl⟩
  | cons m rest =>
    rw [qloopMax]
    dsimp only
    split_ifs <;>
      first
      | exact qloopMax_pres src player qq rest g1 standPat alpha beta maxEval st
      | exact ⟨(qsearch_pres src player (make_move g1 m) alpha beta false qq st).1,
          (qsearch_pres src player (make_move g1 m) alpha beta false qq st).2⟩
      | exact ⟨(qloopMax_pres src player qq rest g1 standPat _ beta _ _).1.trans
            (qsearch_pres src player (make_move g1 m) alpha beta false qq st).1,
          (qloopMax_pres src player qq rest g1 standPat _ beta _ _).2.trans
            (qsearch_pres src player (make_move g1 m) alpha beta false qq st).2⟩
termination_by (maxQuiescenceDepth - qq, 2, ms.length)

/-- Loop part of `qsearch_pres`, minimizing. -/
def qloopMin_pres (src : Nat → ℚ) (player : Int) (qq : Nat) (ms : List Move)
    (g1 : Game) (standPat : ℚ) (alpha beta minEval : XQ) (st : SState) :
    (qloopMin src player qq ms g1 standPat alpha beta minEval st).2.tt = st.tt ∧
      (qloopMin src player qq ms g1 standPat alpha beta minEval st).2.hits = st.hits := by
  cases ms with
  | nil => rw [qloopMin]; exact ⟨rfl, rfl⟩
  | cons m rest =>
    rw [qloopMin]
    dsimp only
    split_ifs <;>
      first
      | exact qloopMin_pres src player qq rest g1 standPat alpha beta minEval st
      | exact ⟨(qsearch_pres src player (make_move g1 m) alpha beta true qq st).1,
          (qsearch_pres src player (make_move g1 m) alpha beta true qq st).2⟩
      | exact ⟨(qloopMin_pres src player qq rest g1 standPat alpha _ _ _).1.trans
            (qsearch_pres src player (make_move g1 m) alpha beta true qq st).1,
          (qloopMin_pres src player qq rest g1 standPat alpha _ _ _).2.trans
            (qsearch_pres src player (make_move g1 m) alpha beta true qq st).2⟩
termination_by (maxQuiescenceDepth - qq, 2, ms.length)

end

end TC

namespace TC

mutual

/-- Proof by the minimax recursion: the early-hit counter never decreases. -/
def minimaxF_hits_mono (cfg : AIC) (fuel : Nat) (g : Game) (depth : Nat)
    (alpha beta : XQ) (maximizing : Bool) (st : SState) :
    st.hits ≤ (minimaxF cfg fuel g depth alpha beta maximizing st).2.hits := by
  cases fuel with
  | zero =>
    rw [minimaxF]
    exact le_of_eq (evaluateS_hits cfg.src g cfg.player st).symm
  | succ f =>
    rw [minimaxF]
    dsimp only
    split_ifs <;>
      first
      | exact le_of_eq (evaluateS_hits cfg.src g cfg.player st).symm
      | exact minimaxBody_hits_mono cfg f g depth alpha beta maximizing st
      | skip
    all_goals
      first
      | exact minimaxBody_hits_mono cfg f g depth alpha beta maximizing st
      | (split <;>
          first
          | exact minimaxBody_hits_mono cfg f g depth alpha beta maximizing st
          | (split_ifs <;>
              first
              | exact Nat.le_succ st.hits
              | exact minimaxBody_hits_mono cfg f g depth alpha beta maximizing st))
termination_by (fuel, 0, 0)

/-- Body part of `minimaxF_hits_mono`. -/
def minimaxBody_hits_mono (cfg : AIC) (f : Nat) (g : Game) (depth : Nat)
    (alpha beta : XQ) (maximizing : Bool) (st : SState) :
    st.hits ≤ (minimaxBody cfg f g depth alpha beta maximizing st).2.hits := by
  rw [minimaxBody]
  dsimp only
  split_ifs <;>
    first
    | exact le_of_eq
        (qsearch_pres cfg.src cfg.player g alpha beta maximizing 0 st).2.symm
    | exact le_refl st.hits
    | exact mmLoop_hits_mono cfg f _ depth _ alpha beta maximizing _ st
termination_by (f, 2, 0)

/-- Loop part of `minimaxF_hits_mono`. -/
def mmLoop_hits_mono (cfg : AIC) (f : Nat) (g1 : Game) (depth : Nat) (ms : List Move)
    (alpha beta : XQ) (maximizing : Bool) (best : XQ) (st : SState) :
    st.hits ≤ (mmLoop cfg f g1 depth ms alpha beta maximizing best st).2.2.2.hits := by
  cases ms with
  | nil => rw [mmLoop]
  | cons m rest =>
    rw [mmLoop]
    dsimp only
    have hc := minimaxF_hits_mono cfg f (make_move g1 m)
      (depthNext depth (get_search_extension m (make_move g1 m))) alpha beta
      (!maximizing) st
    split_ifs <;>
      first
      | exact hc
      | exact le_trans hc (mmLoop_hits_mono cfg f g1 depth rest _ beta maximizing _ _)
      | exact le_trans hc (mmLoop_hits_mono cfg f g1 depth rest alpha _ maximizing _ _)
termination_by (f, 1, ms.length)

end

end TC

namespace TC

mutual

/-- Proof by the minimax recursion: when a search records no early
transposition return, disabling every lookup leaves the result (score and
final state) unchanged — lookups are then never used, and stores are write
only. -/
def minimaxF_noTT (cfg : AIC) (fuel : Nat) (g : Game) (depth : Nat) (alpha beta : XQ)
    (maximizing : Bool) (st : SState)
    (h : (minimaxF cfg fuel g depth alpha beta maximizing st).2.hits = st.hits) :
    minimaxF { cfg with useTT := false } fuel g depth alpha beta maximizing st
      = minimaxF cfg fuel g depth alpha beta maximizing st := by
  cases fuel with
  | zero => rw [minimaxF, minimaxF]
  | succ f =>
    rw [minimaxF] at h
    rw [minimaxF, minimaxF]
    dsimp only at h ⊢
    by_cases hterm : is_game_over g = true
    · rw [if_pos hterm, if_pos hterm]
    · rw [if_neg hterm] at h
      rw [if_neg hterm, if_neg hterm]
      simp only [Bool.false_eq_true, if_false]
      by_cases hU : cfg.useTT = true
      · rw [if_pos hU] at h ⊢
        rcases hL : lookupTT st.tt (get_board_key cfg g depth maximizing) with _ | e
        · rw [hL] at h
          exact minimaxBody_noTT cfg f g depth alpha beta maximizing st h
        · rw [hL] at h
          dsimp only at h ⊢
          by_cases hD : depth ≤ e.depth
          · rw [if_pos hD] at h ⊢
            by_cases hE : e.ttype = TTType.exact
            · rw [if_pos hE] at h
              exact absurd h (by simp)
            · rw [if_neg hE] at h ⊢
              by_cases hE2 : e.ttype = TTType.lower ∧ XQ.le beta e.score = true
              · rw [if_pos hE2] at h
                exact absurd h (by simp)
              · rw [if_neg hE2] at h ⊢
                by_cases hE3 : e.ttype = TTType.upper ∧ XQ.le e.score alpha = true
                · rw [if_pos hE3] at h
                  exact absurd h (by simp)
                · rw [if_neg hE3] at h ⊢
                  exact minimaxBody_noTT cfg f g depth alpha beta maximizing st h
          · rw [if_neg hD] at h ⊢
            exact minimaxBody_noTT cfg f g depth alpha beta maximizing st h
      · rw [if_neg hU] at h ⊢
        exact minimaxBody_noTT cfg f g depth alpha beta maximizing st h
termination_by (fuel, 0, 0)

/-- Body part of `minimaxF_noTT`. -/
def minimaxBody_noTT (cfg : AIC) (f : Nat) (g : Game) (depth : Nat) (alpha beta : XQ)
    (maximizing : Bool) (st : SState)
    (h : (minimaxBody cfg f g depth alpha beta maximizing st).2.hits = st.hits) :
    minimaxBody { cfg with useTT := false } f g depth alpha beta maximizing st
      = minimaxBody cfg f g depth alpha beta maximizing st := by
  rw [minimaxBody] at h
  rw [minimaxBody, minimaxBody]
  dsimp only at h ⊢
  by_cases hd : depth = 0
  · rw [if_pos hd, if_pos hd]
    rfl
  · rw [if_neg hd] at h
    rw [if_neg hd, if_neg hd]
    by_cases hmv : (get_valid_moves
        { g with currentPlayer := if maximizing then cfg.player else -cfg.player }).isEmpty
        = true
    · rw [if_pos hmv] at h ⊢
      rw [if_pos hmv]
      rfl
    · rw [if_neg hmv] at h ⊢
      rw [if_neg hmv]
      have hl := mmLoop_noTT cfg f
        { g with currentPlayer := if maximizing then cfg.player else -cfg.player } depth
        (order_moves (get_valid_moves
          { g with currentPlayer := if maximizing then cfg.player else -cfg.player })
          { g with currentPlayer := if maximizing then cfg.player else -cfg.player })
        alpha beta maximizing (if maximizing then XQ.ninf else XQ.pinf) st h
      rw [hl]
      rfl
termination_by (f, 2, 0)

/-- Loop part of `minimaxF_noTT`. -/
def mmLoop_noTT (cfg : AIC) (f : Nat) (g1 : Game) (depth : Nat) (ms : List Move)
    (alpha beta : XQ) (maximizing : Bool) (best : XQ) (st : SState)
    (h : (mmLoop cfg f g1 depth ms alpha beta maximizing best st).2.2.2.hits = st.hits) :
    mmLoop { cfg with useTT := false } f g1 depth ms alpha beta maximizing best st
      = mmLoop cfg f g1 depth ms alpha beta maximizing best st := by
  cases ms with
  | nil => rw [mmLoop, mmLoop]
  | cons m rest =>
    rw [mmLoop] at h
    rw [mmLoop, mmLoop]
    dsimp only at h ⊢
    have hmono := minimaxF_hits_mono cfg f (make_move g1 m)
      (depthNext depth (get_search_extension m (make_move g1 m))) alpha beta
      (!maximizing) st
    by_cases hmx : maximizing = true
    · rw [if_pos hmx] at h ⊢
      rw [if_pos hmx]
      by_cases hcut : XQ.le beta
          (XQ.qmax alpha
            (minimaxF cfg f (make_move g1 m)
              (depthNext depth (get_search_extension m (make_move g1 m))) alpha beta
              (!maximizing) st).1) = true
      · rw [if_pos hcut] at h
        have hF := minimaxF_noTT cfg f (make_move g1 m)
          (depthNext depth (get_search_extension m (make_move g1 m))) alpha beta
          (!maximizing) st h
        rw [hF, if_pos hcut, if_pos hcut]
      · rw [if_neg hcut] at h
        have hrestmono := mmLoop_hits_mono cfg f g1 depth rest
          (XQ.qmax alpha
            (minimaxF cfg f (make_move g1 m)
              (depthNext depth (get_search_extension m (make_move g1 m))) alpha beta
              (!maximizing) st).1) beta maximizing
          (XQ.qmax best
            (minimaxF cfg f (make_move g1 m)
              (depthNext depth (get_search_extension m (make_move g1 m))) alpha beta
              (!maximizing) st).1)
          (minimaxF cfg f (make_move g1 m)
            (depthNext depth (get_search_extension m (make_move g1 m))) alpha beta
            (!maximizing) st).2
        have hr2 : (minimaxF cfg f (make_move g1 m)
            (depthNext depth (get_search_extension m (make_move g1 m))) alpha beta
            (!maximizing) st).2.hits = st.hits := by omega
        have hF := minimaxF_noTT cfg f (make_move g1 m)
          (depthNext depth (get_search_extension m (make_move g1 m))) alpha beta
          (!maximizing) st hr2
        rw [hF, if_neg hcut, if_neg hcut]
        exact mmLoop_noTT cfg f g1 depth rest _ beta maximizing _ _ (by omega)
    · rw [if_neg hmx] at h ⊢
      rw [if_neg hmx]
      by_cases hcut : XQ.le
          (XQ.qmin beta
            (minimaxF cfg f (make_move g1 m)
              (depthNext depth (get_search_extension m (make_move g1 m))) alpha beta
              (!maximizing) st).1) alpha = true
      · rw [if_pos hcut] at h
        have hF := minimaxF_noTT cfg f (make_move g1 m)
          (depthNext depth (get_search_extension m (make_move g1 m))) alpha beta
          (!maximizing) st h
        rw [hF, if_pos hcut, if_pos hcut]
      · rw [if_neg hcut] at h
        have hrestmono := mmLoop_hits_mono cfg f g1 depth rest alpha
          (XQ.qmin beta
            (minimaxF cfg f (make_move g1 m)
              (depthNext depth (get_search_extension m (make_move g1 m))) alpha beta
              (!maximizing) st).1) maximizing
          (XQ.qmin best
            (minimaxF cfg f (make_move g1 m)
              (depthNext depth (get_search_extension m (make_move g1 m))) alpha beta
              (!maximizing) st).1)
          (minimaxF cfg f (make_move g1 m)
            (depthNext depth (get_search_extension m (make_move g1 m))) alpha beta
            (!maximizing) st).2
        have hr2 : (minimaxF cfg f (make_move g1 m)
            (depthNext depth (get_search_extension m (make_move g1 m))) alpha beta
            (!maximizing) st).2.hits = st.hits := by omega
        have hF := minimaxF_noTT cfg f (make_move g1 m)
          (depthNext depth (get_search_extension m (make_move g1 m))) alpha beta
          (!maximizing) st hr2
        rw [hF, if_neg hcut, if_neg hcut]
        exact mmLoop_noTT cfg f g1 depth rest alpha _ maximizing _ _ (by omega)
termination_by (f, 1, ms.length)

end

end TC

namespace TC

/-! Theorems. -/

/-- C6: for every game state, side and search state, `evaluate` leaves the
state unchanged on every exit path — the hypothetical swap of side-to-move is
restored on the non-terminal path and nothing is touched on the terminal
path; board and move counter are never written. -/
theorem evaluate_restores_caller_state (src : Nat → ℚ) (g : Game) (p : Int) (st : SState) :
    (evaluateS src g p st).2.1 = g := by
  cases g with
  | mk b cp mc =>
    unfold evaluateS
    split
    · rfl
    · rfl

/-- C9, counterexample: the tie-break jitter is not strictly below 2 in
magnitude — the draw u = 0 (a value `random.random()` can return) gives
jitter (0 - 0.5) * 4 = -2, of magnitude exactly 2. -/
theorem jitter_not_strictly_bounded :
    (0 : ℚ) ≤ 0 ∧ (0 : ℚ) < 1 ∧ ¬ qabs (jitterOf 0) < 2 := by
  refine ⟨le_refl 0, by norm_num, ?_⟩
  unfold jitterOf qabs
  norm_num

/-- C9, amended: for every draw u of the source (uniform on [0,1)), the
jitter `(u - 0.5) * 4` added by `evaluate` has magnitude at most 2, and
strictly below 2 whenever the draw is nonzero; the embedding makes the
source an explicit parameter, so `evaluate` at equal states, sides and draws
returns equal scores by construction. -/
theorem jitter_bound (u : ℚ) (h0 : 0 ≤ u) (h1 : u < 1) :
    qabs (jitterOf u) ≤ 2 ∧ (0 < u → qabs (jitterOf u) < 2) := by
  unfold jitterOf qabs
  constructor
  · split <;> nlinarith
  · intro hu
    split <;> nlinarith

/-- C9, witness: the bound theorem applied at the draw 1/2. -/
theorem jitter_bound_witness :
    (0 : ℚ) ≤ 1/2 ∧ (1/2 : ℚ) < 1 ∧
      (qabs (jitterOf (1/2)) ≤ 2 ∧ ((0 : ℚ) < 1/2 → qabs (jitterOf (1/2)) < 2)) :=
  ⟨by norm_num, by norm_num, jitter_bound (1/2) (by norm_num) (by norm_num)⟩

/-- C3: `ThaiCheckersGame.make_move` applied to a structurally invalid move
(the empty source cell (3,3) of the initial position) does not fail at all:
it completes silently, leaving the board as it was (it moves a zero), while
still flipping the side to move and incrementing the counter. -/
theorem make_move_empty_source_silent :
    cell reset_game.board 3 3 = 0 ∧
      make_move reset_game ((3, 3), (4, 4)) =
        { board := reset_game.board, currentPlayer := -1, moveCount := 1 } := by
  with_unfolding_all decide

/-- C2, counterexample: after the quiet move (1,2)-(2,3) of `c2game` the
opponent has exactly one reply and that reply is quiet, so the claimed rule
(capture just made, or all-capture replies with a recapture) grants 0, but
`get_search_extension` returns 1 through its forced-reply branch. -/
theorem extension_on_forced_reply :
    get_search_extension ((1,2),(2,3)) (make_move c2game ((1,2),(2,3))) = 1 ∧
      c2_claim_grants ((1,2),(2,3)) (make_move c2game ((1,2),(2,3))) = false := by
  with_unfolding_all decide

/-- C2, amended: `get_search_extension` returns 1 exactly when the move just
made was a capture, or the opponent has at most one reply in the child state,
or all opponent replies are captures and at least one opponent reply can be
answered by a capture of the square that reply lands on; otherwise 0. -/
theorem extension_characterization (m : Move) (child : Game) :
    get_search_extension m child =
      if (m.1.1 - m.2.1).natAbs > 1 then 1
      else if (get_valid_moves child).length ≤ 1 then 1
      else if (get_valid_moves child).all (fun om => (om.1.1 - om.2.1).natAbs > 1) &&
          (get_valid_moves child).any (fun om => 0 < count_recaptures child om) then 1
      else 0 := by
  unfold get_search_extension
  by_cases hc : (m.1.1 - m.2.1).natAbs > 1
  · simp [hc]
  · by_cases hlen : (get_valid_moves child).length ≤ 1
    · simp [hc, hlen]
    · by_cases hall : ((get_valid_moves child).all fun om => decide ((om.1.1 - om.2.1).natAbs > 1)) = true
      · by_cases hany :
            ((get_valid_moves child).any fun om => decide (0 < count_recaptures child om)) = true
        · simp [hc, hlen, hall, hany]
        · simp [hc, hlen, hall, hany]
      · simp [hc, hlen, hall]

/-- C8: `quiescence_search` is total (it is defined by recursion on the
remaining quiescence budget), and any call at or past the configured cap
`max_quiescence_depth = 4` returns the static evaluation without recursing;
since every recursive call raises the quiescence depth by exactly one, the
recursion depth never exceeds the cap. -/
theorem quiescence_cap (src : Nat → ℚ) (player : Int) (g : Game) (alpha beta : XQ)
    (maximizing : Bool) (q : Nat) (st : SState) (h : maxQuiescenceDepth ≤ q) :
    qsearchF src player g alpha beta maximizing q st =
      (XQ.fin (evaluateS src g player st).1, (evaluateS src g player st).2.2) := by
  rw [qsearchF]
  simp [h]

/-- C8, witness: the cap theorem applied at quiescence depth 4 on the initial
position. -/
theorem quiescence_cap_witness :
    maxQuiescenceDepth ≤ 4 ∧
      qsearchF (fun _ => 0) 1 reset_game XQ.ninf XQ.pinf true 4 ⟨[], 0, 0⟩ =
        (XQ.fin (evaluateS (fun _ => 0) reset_game 1 ⟨[], 0, 0⟩).1,
          (evaluateS (fun _ => 0) reset_game 1 ⟨[], 0, 0⟩).2.2) :=
  ⟨by decide,
    quiescence_cap (fun _ => 0) 1 reset_game XQ.ninf XQ.pinf true 4 ⟨[], 0, 0⟩ (by decide)⟩

end TC

namespace TC

theorem foldl_pairs (f : (Int × Int) → List Move × List Move) (l : List (Int × Int))
    (a b : List Move) :
    l.foldl (fun acc x => (acc.1 ++ (f x).1, acc.2 ++ (f x).2)) (a, b)
      = (a ++ l.flatMap (fun x => (f x).1), b ++ l.flatMap (fun x => (f x).2)) := by
  induction l generalizing a b with
  | nil => simp
  | cons x xs ih => simp [ih]

theorem get_piece_moves_eq (g : Game) (r c piece : Int) :
    get_piece_moves g r c piece
      = ((pieceDirs g piece).flatMap (fun d => (dirMoves g r c d).1),
         (pieceDirs g piece).flatMap (fun d => (dirMoves g r c d).2)) := by
  have h := foldl_pairs (fun d => dirMoves g r c d) (pieceDirs g piece) [] []
  simpa [get_piece_moves] using h

theorem scanPieces_eq (g : Game) :
    scanPieces g
      = (coords.flatMap (fun rc => (pieceGen g rc).1),
         coords.flatMap (fun rc => (pieceGen g rc).2)) := by
  have hbody : ∀ (acc : List Move × List Move) (rc : Int × Int),
      (let piece := cell g.board rc.1 rc.2
       if piece * g.currentPlayer ≤ 0 then acc
       else
         let pm := get_piece_moves g rc.1 rc.2 piece
         (acc.1 ++ pm.1, acc.2 ++ pm.2))
        = (acc.1 ++ (pieceGen g rc).1, acc.2 ++ (pieceGen g rc).2) := by
    intro acc rc
    by_cases hp : cell g.board rc.1 rc.2 * g.currentPlayer ≤ 0
    · simp [pieceGen, hp]
    · simp [pieceGen, hp]
  have h := foldl_pairs (fun rc => pieceGen g rc) coords [] []
  calc scanPieces g
      = coords.foldl (fun acc rc => (acc.1 ++ (pieceGen g rc).1, acc.2 ++ (pieceGen g rc).2))
          ([], []) := by
        unfold scanPieces
        congr 1
        funext acc rc
        exact hbody acc rc
    _ = _ := by simpa using h

theorem mem_coords (rc : Int × Int) (h : rc ∈ coords) :
    0 ≤ rc.1 ∧ rc.1 < 8 ∧ 0 ≤ rc.2 ∧ rc.2 < 8 := by
  simp [coords] at h
  obtain ⟨r, hr, c, hc, h1, h2⟩ := h
  obtain ⟨a, ha, rfl⟩ := hc
  dsimp only
  omega

theorem mem_pieceDirs (g : Game) (piece : Int) (d : Int × Int) (h : d ∈ pieceDirs g piece) :
    (d.1 = 1 ∨ d.1 = -1) ∧ (d.2 = 1 ∨ d.2 = -1) := by
  unfold pieceDirs at h
  split_ifs at h <;> fin_cases h <;> decide

theorem mem_dirMoves_caps (g : Game) (r c : Int) (d : Int × Int) (m : Move)
    (h : m ∈ (dirMoves g r c d).2) :
    m = ((r, c), (r + d.1 + d.1, c + d.2 + d.2)) ∧
      inBoard (r + d.1) (c + d.2) = true ∧
      cell g.board (r + d.1) (c + d.2) * g.currentPlayer < 0 ∧
      inBoard (r + d.1 + d.1) (c + d.2 + d.2) = true ∧
      cell g.board (r + d.1 + d.1) (c + d.2 + d.2) = 0 := by
  unfold dirMoves at h
  simp only at h
  split_ifs at h with h1 h2 h3
  · simp only [List.mem_singleton] at h
    simp only [Bool.and_eq_true, decide_eq_true_eq] at h3
    exact ⟨h, h1, h2.2, h3.1, h3.2⟩
  all_goals simp at h

theorem mem_dirMoves_quiet (g : Game) (r c : Int) (d : Int × Int) (m : Move)
    (h : m ∈ (dirMoves g r c d).1) :
    m = ((r, c), (r + d.1, c + d.2)) ∧
      inBoard (r + d.1) (c + d.2) = true ∧
      cell g.board (r + d.1) (c + d.2) = 0 := by
  unfold dirMoves at h
  simp only at h
  split_ifs at h with h1
  · simp only [List.mem_singleton] at h
    simp only [Bool.and_eq_true, decide_eq_true_eq] at h1
    exact ⟨h, h1.1, h1.2⟩
  · simp at h

theorem mem_scan_caps (g : Game) (m : Move) (h : m ∈ (scanPieces g).2) :
    ∃ r c dr dc : Int,
      (0 ≤ r ∧ r < 8 ∧ 0 ≤ c ∧ c < 8) ∧
      (dr = 1 ∨ dr = -1) ∧ (dc = 1 ∨ dc = -1) ∧
      cell g.board r c * g.currentPlayer > 0 ∧
      m = ((r, c), (r + dr + dr, c + dc + dc)) ∧
      inBoard (r + dr) (c + dc) = true ∧
      cell g.board (r + dr) (c + dc) * g.currentPlayer < 0 ∧
      inBoard (r + dr + dr) (c + dc + dc) = true ∧
      cell g.board (r + dr + dr) (c + dc + dc) = 0 := by
  rw [scanPieces_eq] at h
  simp only [List.mem_flatMap] at h
  obtain ⟨rc, hrc, hm⟩ := h
  have hb := mem_coords rc hrc
  unfold pieceGen at hm
  split_ifs at hm with hp
  · simp at hm
  · rw [get_piece_moves_eq] at hm
    simp only [List.mem_flatMap] at hm
    obtain ⟨d, hd, hmd⟩ := hm
    have hdd := mem_pieceDirs g _ d hd
    have hfacts := mem_dirMoves_caps g rc.1 rc.2 d m hmd
    exact ⟨rc.1, rc.2, d.1, d.2, hb, hdd.1, hdd.2, by omega, hfacts.1, hfacts.2.1,
      hfacts.2.2.1, hfacts.2.2.2.1, hfacts.2.2.2.2⟩

theorem mem_scan_quiet (g : Game) (m : Move) (h : m ∈ (scanPieces g).1) :
    ∃ r c dr dc : Int,
      (0 ≤ r ∧ r < 8 ∧ 0 ≤ c ∧ c < 8) ∧
      (dr = 1 ∨ dr = -1) ∧ (dc = 1 ∨ dc = -1) ∧
      cell g.board r c * g.currentPlayer > 0 ∧
      m = ((r, c), (r + dr, c + dc)) ∧
      inBoard (r + dr) (c + dc) = true ∧
      cell g.board (r + dr) (c + dc) = 0 := by
  rw [scanPieces_eq] at h
  simp only [List.mem_flatMap] at h
  obtain ⟨rc, hrc, hm⟩ := h
  have hb := mem_coords rc hrc
  unfold pieceGen at hm
  split_ifs at hm with hp
  · simp at hm
  · rw [get_piece_moves_eq] at hm
    simp only [List.mem_flatMap] at hm
    obtain ⟨d, hd, hmd⟩ := hm
    have hdd := mem_pieceDirs g _ d hd
    have hfacts := mem_dirMoves_quiet g rc.1 rc.2 d m hmd
    exact ⟨rc.1, rc.2, d.1, d.2, hb, hdd.1, hdd.2, by omega, hfacts.1, hfacts.2.1, hfacts.2.2⟩

/-- C1: `get_valid_moves` returns the capture accumulator exactly when it is
nonempty and the quiet accumulator otherwise; every accumulated capture is a
two-row jump and every accumulated quiet move a one-row step, so when any
capture exists the returned set is all captures and nothing else, and with no
capture available all quiet moves are returned. -/
theorem mandatory_capture (g : Game) :
    (get_valid_moves g
        = if (scanPieces g).2 = [] then (scanPieces g).1 else (scanPieces g).2) ∧
    (∀ m ∈ (scanPieces g).2, (m.2.1 - m.1.1).natAbs = 2) ∧
    (∀ m ∈ (scanPieces g).1, (m.2.1 - m.1.1).natAbs = 1) := by
  refine ⟨?_, ?_, ?_⟩
  · unfold get_valid_moves
    rcases hc : (scanPieces g).2 with _ | ⟨x, xs⟩ <;> simp [hc]
  · intro m hm
    obtain ⟨r, c, dr, dc, _, hdr, _, _, hm_eq, _⟩ := mem_scan_caps g m hm
    subst hm_eq
    simp only
    rcases hdr with h | h <;> subst h <;> omega
  · intro m hm
    obtain ⟨r, c, dr, dc, _, hdr, _, _, hm_eq, _⟩ := mem_scan_quiet g m hm
    subst hm_eq
    simp only
    rcases hdr with h | h <;> subst h <;> omega

/-- C1, witness: in `captureGame` the capture list is nonempty, the returned
moves are exactly it, and the capture (2,2)-(4,4) jumps two rows. -/
theorem mandatory_capture_witness :
    ((scanPieces captureGame).2 ≠ [] ∧
      get_valid_moves captureGame = (scanPieces captureGame).2) ∧
    ((2,2),(4,4)) ∈ (scanPieces captureGame).2 ∧
    ((((2,2),(4,4)) : Move).2.1 - (((2,2),(4,4)) : Move).1.1).natAbs = 2 := by
  refine ⟨⟨?_, ?_⟩, ?_, ?_⟩
  · with_unfolding_all decide
  · have h := (mandatory_capture captureGame).1
    rw [h]
    split
    · rename_i hx
      exact absurd hx (by with_unfolding_all decide)
    · rfl
  · with_unfolding_all decide
  · exact (mandatory_capture captureGame).2.1 ((2,2),(4,4)) (by with_unfolding_all decide)

end TC

namespace TC

theorem mem_insertDesc (x y : Move × ℚ) :
    ∀ l : List (Move × ℚ), y ∈ insertDesc x l → y = x ∨ y ∈ l := by
  intro l
  induction l with
  | nil => intro h; simpa [insertDesc] using h
  | cons z zs ih =>
    intro h
    unfold insertDesc at h
    split_ifs at h
    · simp only [List.mem_cons] at h ⊢
      tauto
    · simp only [List.mem_cons] at h ⊢
      rcases h with h | h
      · tauto
      · rcases ih h with h1 | h1 <;> tauto

theorem mem_sortFold (l : List (Move × ℚ)) :
    ∀ (acc : List (Move × ℚ)) (y : Move × ℚ),
      y ∈ l.foldl (fun acc x => insertDesc x acc) acc → y ∈ acc ∨ y ∈ l := by
  induction l with
  | nil => intro acc y h; exact Or.inl h
  | cons z zs ih =>
    intro acc y h
    rcases ih (insertDesc z acc) y h with h1 | h1
    · rcases mem_insertDesc z y acc h1 with h2 | h2
      · exact Or.inr (h2 ▸ List.mem_cons_self z zs)
      · exact Or.inl h2
    · exact Or.inr (List.mem_cons_of_mem z h1)

theorem mem_sortByValueDesc (l : List (Move × ℚ)) (y : Move × ℚ)
    (h : y ∈ sortByValueDesc l) : y ∈ l := by
  rcases mem_sortFold l [] y h with h1 | h1
  · simp at h1
  · exact h1

theorem mem_order_captures (moves : List Move) (g : Game) (m : Move)
    (h : m ∈ order_captures_by_value moves g) : m ∈ moves := by
  unfold order_captures_by_value at h
  simp only [List.mem_map] at h
  obtain ⟨p, hp, hpm⟩ := h
  have h1 := mem_sortByValueDesc _ p hp
  simp only [List.mem_map] at h1
  obtain ⟨m1, hm1, hpm1⟩ := h1
  subst hpm
  rw [← hpm1]
  exact hm1

theorem mem_order_quiet (moves : List Move) (g : Game) (m : Move)
    (h : m ∈ order_quiet_moves moves g) : m ∈ moves := by
  unfold order_quiet_moves at h
  simp only [List.mem_map] at h
  obtain ⟨p, hp, hpm⟩ := h
  have h1 := mem_sortByValueDesc _ p hp
  simp only [List.mem_map] at h1
  obtain ⟨m1, hm1, hpm1⟩ := h1
  subst hpm
  rw [← hpm1]
  exact hm1

theorem mem_order_moves (moves : List Move) (g : Game) (m : Move)
    (h : m ∈ order_moves moves g) : m ∈ moves := by
  unfold order_moves at h
  rcases List.mem_append.mp h with h1 | h1
  · exact List.mem_of_mem_filter (mem_order_captures _ g m h1)
  · exact List.mem_of_mem_filter (mem_order_quiet _ g m h1)

theorem gbLoop_mem (cfg : AIC) (g : Game) (S : List Move) :
    ∀ (ms : List Move) (bestMove : Move) (bs alpha beta : XQ) (st : SState),
      bestMove ∈ S → (∀ m ∈ ms, m ∈ S) →
      (gbLoop cfg g ms bestMove bs alpha beta st).1 ∈ S := by
  intro ms
  induction ms with
  | nil => intro bm bs a b st hbm _; rw [gbLoop]; exact hbm
  | cons m rest ih =>
    intro bm bs a b st hbm hms
    rw [gbLoop]
    apply ih
    · split
      · exact hms m (List.mem_cons_self m rest)
      · exact hbm
    · intro m1 hm1
      exact hms m1 (List.mem_cons_of_mem m hm1)

/-- C10: `get_best_move` returns None exactly when the position has no legal
moves, and any move it returns is a member of `get_valid_moves` of the
searched state (ordering only permutes the legal moves and the root loop only
selects among them). -/
theorem best_move_legal (cfg : AIC) (g : Game) (st : SState) :
    ((get_best_move cfg g st).1 = none ↔ get_valid_moves g = []) ∧
    (∀ m : Move, (get_best_move cfg g st).1 = some m → m ∈ get_valid_moves g) := by
  rcases hmv : get_valid_moves g with _ | ⟨m0, rest⟩
  · constructor
    · simp [get_best_move, hmv]
    · intro m hm
      simp [get_best_move, hmv] at hm
  · by_cases hr : rest.isEmpty
    · constructor
      · simp [get_best_move, hmv, hr]
      · intro m hm
        simp only [get_best_move, hmv, hr, if_true, Option.some.injEq] at hm
        exact hm ▸ List.mem_cons_self m0 rest
    · constructor
      · simp [get_best_move, hmv, hr]
      · intro m hm
        simp [get_best_move, hmv, hr] at hm
        rw [← hm]
        apply gbLoop_mem cfg g (m0 :: rest)
        · exact List.mem_cons_self m0 rest
        · intro m1 hm1
          exact mem_order_moves (m0 :: rest) g m1 hm1

end TC

namespace TC

theorem XQ_le_refl (a : XQ) : XQ.le a a = true := by
  cases a <;> simp [XQ.le]

theorem XQ_ninf_le (a : XQ) : XQ.le XQ.ninf a = true := rfl

theorem XQ_le_pinf (a : XQ) : XQ.le a XQ.pinf = true := by
  cases a <;> simp [XQ.le]

theorem XQ_le_total (a b : XQ) : XQ.le a b = true ∨ XQ.le b a = true := by
  cases a <;> cases b <;> simp [XQ.le]
  exact le_total _ _

theorem XQ_le_trans {a b c : XQ} (h1 : XQ.le a b = true) (h2 : XQ.le b c = true) :
    XQ.le a c = true := by
  cases a <;> cases b <;> cases c <;> simp [XQ.le] at * <;> exact h1.trans h2

theorem XQ_qmax_mono (x : XQ) {a b : XQ} (h : XQ.le a b = true) :
    XQ.le (XQ.qmax a x) (XQ.qmax b x) = true := by
  unfold XQ.qmax
  split_ifs with h1 h2 h2
  · exact h
  · rcases XQ_le_total x b with h3 | h3
    · exact absurd h3 h2
    · exact XQ_le_trans h h3
  · exact h2
  · exact XQ_le_refl x

theorem XQ_qmin_mono (x : XQ) {a b : XQ} (h : XQ.le a b = true) :
    XQ.le (XQ.qmin a x) (XQ.qmin b x) = true := by
  unfold XQ.qmin
  split_ifs with h1 h2 h2
  · exact h
  · exact h1
  · rcases XQ_le_total a x with h3 | h3
    · exact absurd h3 h1
    · exact XQ_le_trans h3 h
  · exact XQ_le_refl x

theorem lookup_storeTT (t : List (TTKey × TTEntry)) (k : TTKey) (e : TTEntry) :
    lookupTT (storeTT t k e) k = some e := by
  simp [lookupTT, storeTT, List.find?]

theorem mmLoop_max_inv (cfg : AIC) (f : Nat) (g1 : Game) (depth : Nat) :
    ∀ (ms : List Move) (alpha beta best : XQ) (st : SState),
      XQ.le best alpha = true →
      XQ.le (mmLoop cfg f g1 depth ms alpha beta true best st).1
          (mmLoop cfg f g1 depth ms alpha beta true best st).2.1 = true ∧
        (mmLoop cfg f g1 depth ms alpha beta true best st).2.2.1 = beta := by
  intro ms
  induction ms with
  | nil =>
    intro alpha beta best st h
    rw [mmLoop]
    exact ⟨h, rfl⟩
  | cons m rest ih =>
    intro alpha beta best st h
    rw [mmLoop]
    simp only [if_true]
    split_ifs with hcut
    · exact ⟨XQ_qmax_mono _ h, rfl⟩
    · exact ih _ _ _ _ (XQ_qmax_mono _ h)

theorem mmLoop_min_inv (cfg : AIC) (f : Nat) (g1 : Game) (depth : Nat) :
    ∀ (ms : List Move) (alpha beta best : XQ) (st : SState),
      XQ.le beta best = true →
      (mmLoop cfg f g1 depth ms alpha beta false best st).2.1 = alpha ∧
        XQ.le (mmLoop cfg f g1 depth ms alpha beta false best st).2.2.1
          (mmLoop cfg f g1 depth ms alpha beta false best st).1 = true := by
  intro ms
  induction ms with
  | nil =>
    intro alpha beta best st h
    rw [mmLoop]
    exact ⟨rfl, h⟩
  | cons m rest ih =>
    intro alpha beta best st h
    rw [mmLoop]
    simp only [Bool.false_eq_true, if_false]
    split_ifs with hcut
    · exact ⟨rfl, XQ_qmin_mono _ h⟩
    · exact ih _ _ _ _ (XQ_qmin_mono _ h)

/-- C4, amended: a non-terminal node of positive depth with a transposition
miss and a nonempty move list stores an entry carrying its returned score at
its own key, classified against the loop-final alpha and beta: a maximizing
node always stores UpperBound (alpha has risen to the best score), a
minimizing node stores UpperBound exactly when the best score is at most the
alpha it was called with and LowerBound otherwise; Exact is stored only by
the depth-zero and no-move paths. -/
theorem minimax_store_classification (cfg : AIC) (f : Nat) (g : Game) (depth : Nat)
    (alpha beta : XQ) (maximizing : Bool) (st : SState)
    (hterm : is_game_over g = false)
    (hmiss : (if cfg.useTT then lookupTT st.tt (get_board_key cfg g depth maximizing)
        else none) = none)
    (hd : ¬ depth = 0)
    (hmv : (get_valid_moves
        { g with currentPlayer := if maximizing then cfg.player else -cfg.player }).isEmpty
      = false) :
    lookupTT (minimaxF cfg (f + 1) g depth alpha beta maximizing st).2.tt
        (get_board_key cfg g depth maximizing)
      = some ⟨(minimaxF cfg (f + 1) g depth alpha beta maximizing st).1, depth,
          if maximizing then TTType.upper
          else if XQ.le (minimaxF cfg (f + 1) g depth alpha beta maximizing st).1 alpha
            then TTType.upper else TTType.lower⟩ := by
  rw [minimaxF]
  simp only [hterm, Bool.false_eq_true, if_false, hmiss]
  rw [minimaxBody]
  simp only [hd, if_false, hmv, Bool.false_eq_true]
  cases maximizing with
  | true =>
    have hinv := mmLoop_max_inv cfg f
      { g with currentPlayer := cfg.player } depth
      (order_moves (get_valid_moves { g with currentPlayer := cfg.player })
        { g with currentPlayer := cfg.player })
      alpha beta XQ.ninf st (XQ_ninf_le alpha)
    simp only [if_true] at hinv ⊢
    rw [lookup_storeTT]
    unfold tt_exit_type
    rw [if_pos hinv.1]
  | false =>
    have hinv := mmLoop_min_inv cfg f
      { g with currentPlayer := -cfg.player } depth
      (order_moves (get_valid_moves { g with currentPlayer := -cfg.player })
        { g with currentPlayer := -cfg.player })
      alpha beta XQ.pinf st (XQ_le_pinf beta)
    simp only [Bool.false_eq_true, if_false] at hinv ⊢
    rw [lookup_storeTT]
    unfold tt_exit_type
    rw [hinv.1]
    split_ifs with hle hin
    · rfl
    · rfl
    · exact absurd hinv.2 hin

end TC

namespace TC

/-- C4, witness: the classification theorem applied to the depth-1 maximizing
node `c4game` with a fresh table: the stored entry is UpperBound and carries
the returned score. -/
theorem minimax_store_classification_witness :
    lookupTT (minimaxF cfg1z 101 c4game 1 XQ.ninf XQ.pinf true stZero).2.tt
        (get_board_key cfg1z c4game 1 true)
      = some ⟨(minimaxF cfg1z 101 c4game 1 XQ.ninf XQ.pinf true stZero).1, 1,
          TTType.upper⟩ := by
  have h := minimax_store_classification cfg1z 100 c4game 1 XQ.ninf XQ.pinf true stZero
    (by with_unfolding_all decide) (by with_unfolding_all decide) (by decide)
    (by with_unfolding_all decide)
  simpa using h

/-- C4, counterexample: at the non-terminal depth-1 node `c4game` with a
nonempty move list and the full window, the returned best score lies strictly
between the original alpha and beta, yet the stored entry is UpperBound, not
Exact as the claim requires. -/
theorem minimax_stores_upper_inside_window :
    is_game_over c4game = false ∧
    (get_valid_moves { c4game with currentPlayer := 1 }).isEmpty = false ∧
    XQ.lt XQ.ninf (minimax cfg1z c4game 1 XQ.ninf XQ.pinf true stZero).1 = true ∧
    XQ.lt (minimax cfg1z c4game 1 XQ.ninf XQ.pinf true stZero).1 XQ.pinf = true ∧
    (lookupTT (minimax cfg1z c4game 1 XQ.ninf XQ.pinf true stZero).2.tt
        (get_board_key cfg1z c4game 1 true)).map TTEntry.ttype = some TTType.upper := by
  with_unfolding_all decide

/-- C10, witness: on `c10game` the depth-1 engine returns the move
(3,1)-(4,2), and the membership half of the legality theorem places it in
`get_valid_moves`. -/
theorem best_move_legal_witness :
    (get_best_move cfg1z c10game stZero).1 = some ((3,1),(4,2)) ∧
      ((3,1),(4,2)) ∈ get_valid_moves c10game := by
  constructor
  · with_unfolding_all decide
  · exact (best_move_legal cfg1z c10game stZero).2 ((3,1),(4,2))
      (by with_unfolding_all decide)

end TC

namespace TC

theorem getD_set_self : ∀ (l : List Int) (i : Nat) (v : Int), i < l.length →
    (l.set i v).getD i 0 = v := by
  intro l
  induction l with
  | nil => intro i v h; simp at h
  | cons a as ih =>
    intro i v h
    cases i with
    | zero => rfl
    | succ j =>
      simp only [List.set, List.getD, List.get?]
      exact ih j v (by simpa using h)

theorem getD_set_ne : ∀ (l : List Int) (i j : Nat) (v : Int), i ≠ j →
    (l.set i v).getD j 0 = l.getD j 0 := by
  intro l
  induction l with
  | nil => intro i j v h; simp
  | cons a as ih =>
    intro i j v h
    cases i with
    | zero =>
      cases j with
      | zero => exact absurd rfl h
      | succ k => rfl
    | succ i1 =>
      cases j with
      | zero => rfl
      | succ k =>
        simp only [List.set, List.getD, List.get?]
        exact ih i1 k v (fun he => h (by rw [he]))

theorem countP_set_add : ∀ (l : List Int) (i : Nat) (v : Int) (p : Int → Bool),
    i < l.length →
    (l.set i v).countP p + (if p (l.getD i 0) then 1 else 0)
      = l.countP p + (if p v then 1 else 0) := by
  intro l
  induction l with
  | nil => intro i v p h; simp at h
  | cons a as ih =>
    intro i v p h
    cases i with
    | zero =>
      simp only [List.set, List.getD_cons_zero, List.countP_cons]
      by_cases hv : p v <;> by_cases ha : p a <;> simp [hv, ha] <;> omega
    | succ j =>
      simp only [List.set, List.getD_cons_succ, List.countP_cons]
      have hj := ih j v p (by simpa using h)
      simp only [List.getD, List.get?_eq_getElem?] at hj ⊢
      by_cases ha : p a <;> simp [ha] <;> omega

theorem cellIdx_lt (r c : Int) (h : 0 ≤ r ∧ r < 8 ∧ 0 ≤ c ∧ c < 8) :
    cellIdx r c < 64 := by
  unfold cellIdx
  omega

theorem cellIdx_inj (r c r1 c1 : Int)
    (h : 0 ≤ r ∧ r < 8 ∧ 0 ≤ c ∧ c < 8) (h1 : 0 ≤ r1 ∧ r1 < 8 ∧ 0 ≤ c1 ∧ c1 < 8)
    (he : cellIdx r c = cellIdx r1 c1) : r = r1 ∧ c = c1 := by
  unfold cellIdx at he
  omega

theorem inBoard_bounds (r c : Int) (h : inBoard r c = true) :
    0 ≤ r ∧ r < 8 ∧ 0 ≤ c ∧ c < 8 := by
  simp only [inBoard, Bool.and_eq_true, decide_eq_true_eq] at h
  exact ⟨h.1.1.1, h.1.1.2, h.1.2, h.2⟩

end TC

namespace TC

theorem quiet_move_countP (g : Game) (r c dr dc : Int)
    (hb : 0 ≤ r ∧ r < 8 ∧ 0 ≤ c ∧ c < 8)
    (hdr : dr = 1 ∨ dr = -1)
    (hbnd : inBoard (r + dr) (c + dc) = true)
    (hdest : cell g.board (r + dr) (c + dc) = 0)
    (hlen : g.board.length = 64)
    (p : Int → Bool) (hp0 : p 0 = false)
    (hp21 : p 2 = p 1) (hpn : p (-2) = p (-1)) :
    (make_move g ((r, c), (r + dr, c + dc))).board.countP p = g.board.countP p := by
  have hbnd2 := inBoard_bounds _ _ hbnd
  have hne : cellIdx (r + dr) (c + dc) ≠ cellIdx r c := by
    intro he
    have := cellIdx_inj _ _ _ _ hbnd2 hb he
    omega
  have hcap : ¬ ((r + dr - r).natAbs > 1) := by
    rcases hdr with h | h <;> omega
  unfold make_move
  dsimp only
  rw [if_neg hcap]
  unfold cell at hdest
  have hlt1 : cellIdx (r + dr) (c + dc) < g.board.length := by
    rw [hlen]; exact cellIdx_lt _ _ hbnd2
  have hlt2 : cellIdx r c < g.board.length := by
    rw [hlen]; exact cellIdx_lt _ _ hb
  set piece := cell g.board r c with hpiece
  set b1 := setCell g.board (r + dr) (c + dc) piece with hb1
  have len1 : b1.length = g.board.length := by
    rw [hb1]; unfold setCell; rw [List.length_set]
  have e1 : b1.countP p + (if p 0 then 1 else 0)
      = g.board.countP p + (if p piece then 1 else 0) := by
    rw [hb1]
    unfold setCell
    rw [← hdest]
    exact countP_set_add g.board _ piece p hlt1
  have hgd1 : b1.getD (cellIdx r c) 0 = piece := by
    rw [hb1]; unfold setCell
    rw [getD_set_ne _ _ _ _ hne]
    rfl
  set b2 := setCell b1 r c 0 with hb2
  have len2 : b2.length = g.board.length := by
    rw [hb2]; unfold setCell; rw [List.length_set, len1]
  have e2 : b2.countP p + (if p piece then 1 else 0)
      = b1.countP p + (if p 0 then 1 else 0) := by
    rw [hb2]
    unfold setCell
    rw [← hgd1]
    exact countP_set_add b1 _ 0 p (by rw [len1]; exact hlt2)
  have hgd2 : b2.getD (cellIdx (r + dr) (c + dc)) 0 = piece := by
    rw [hb2]; unfold setCell
    rw [getD_set_ne _ _ _ _ (fun he => hne he.symm)]
    rw [hb1]; unfold setCell
    exact getD_set_self _ _ _ hlt1
  split_ifs with h1 h2
  · have e3 : (setCell b2 (r + dr) (c + dc) 2).countP p + (if p piece then 1 else 0)
        = b2.countP p + (if p 2 then 1 else 0) := by
      unfold setCell
      rw [← hgd2]
      exact countP_set_add b2 _ 2 p (by rw [len2]; exact hlt1)
    have hpp : p 2 = p piece := by rw [h1.2.2]; exact hp21
    rw [hpp] at e3
    simp only [hp0] at e1 e2
    omega
  · have e3 : (setCell b2 (r + dr) (c + dc) (-2)).countP p + (if p piece then 1 else 0)
        = b2.countP p + (if p (-2) then 1 else 0) := by
      unfold setCell
      rw [← hgd2]
      exact countP_set_add b2 _ (-2) p (by rw [len2]; exact hlt1)
    have hpp : p (-2) = p piece := by rw [h2.2.2]; exact hpn
    rw [hpp] at e3
    simp only [hp0] at e1 e2
    omega
  · simp only [hp0] at e1 e2
    omega

theorem capture_move_countP (g : Game) (r c dr dc : Int)
    (hb : 0 ≤ r ∧ r < 8 ∧ 0 ≤ c ∧ c < 8)
    (hdr : dr = 1 ∨ dr = -1)
    (hmid : inBoard (r + dr) (c + dc) = true)
    (hbnd : inBoard (r + dr + dr) (c + dc + dc) = true)
    (hdest : cell g.board (r + dr + dr) (c + dc + dc) = 0)
    (hlen : g.board.length = 64)
    (p : Int → Bool) (hp0 : p 0 = false)
    (hp21 : p 2 = p 1) (hpn : p (-2) = p (-1)) :
    (make_move g ((r, c), (r + dr + dr, c + dc + dc))).board.countP p
        + (if p (cell g.board (r + dr) (c + dc)) then 1 else 0)
      = g.board.countP p := by
  have hbndM := inBoard_bounds _ _ hmid
  have hbndD := inBoard_bounds _ _ hbnd
  have hneDS : cellIdx (r + dr + dr) (c + dc + dc) ≠ cellIdx r c := by
    intro he
    have := cellIdx_inj _ _ _ _ hbndD hb he
    omega
  have hneDM : cellIdx (r + dr + dr) (c + dc + dc) ≠ cellIdx (r + dr) (c + dc) := by
    intro he
    have := cellIdx_inj _ _ _ _ hbndD hbndM he
    omega
  have hneSM : cellIdx r c ≠ cellIdx (r + dr) (c + dc) := by
    intro he
    have := cellIdx_inj _ _ _ _ hb hbndM he
    omega
  have hcap : (r + dr + dr - r).natAbs > 1 := by
    rcases hdr with h | h <;> omega
  have hmr : Int.fdiv (r + (r + dr + dr)) 2 = r + dr := by
    have h2 : r + (r + dr + dr) = 2 * (r + dr) := by ring
    rw [h2, Int.mul_fdiv_cancel_left _ (by norm_num)]
  have hmc : Int.fdiv (c + (c + dc + dc)) 2 = c + dc := by
    have h2 : c + (c + dc + dc) = 2 * (c + dc) := by ring
    rw [h2, Int.mul_fdiv_cancel_left _ (by norm_num)]
  unfold make_move
  dsimp only
  rw [if_pos hcap, hmr, hmc]
  unfold cell at hdest
  have hlt1 : cellIdx (r + dr + dr) (c + dc + dc) < g.board.length := by
    rw [hlen]; exact cellIdx_lt _ _ hbndD
  have hlt2 : cellIdx r c < g.board.length := by
    rw [hlen]; exact cellIdx_lt _ _ hb
  have hlt3 : cellIdx (r + dr) (c + dc) < g.board.length := by
    rw [hlen]; exact cellIdx_lt _ _ hbndM
  set piece := cell g.board r c with hpiece
  set target := cell g.board (r + dr) (c + dc) with htarget
  set b1 := setCell g.board (r + dr + dr) (c + dc + dc) piece with hb1
  have len1 : b1.length = g.board.length := by
    rw [hb1]; unfold setCell; rw [List.length_set]
  have e1 : b1.countP p + (if p 0 then 1 else 0)
      = g.board.countP p + (if p piece then 1 else 0) := by
    rw [hb1]
    unfold setCell
    rw [← hdest]
    exact countP_set_add g.board _ piece p hlt1
  have hgd1 : b1.getD (cellIdx r c) 0 = piece := by
    rw [hb1]; unfold setCell
    rw [getD_set_ne _ _ _ _ hneDS]
    rfl
  set b2 := setCell b1 r c 0 with hb2
  have len2 : b2.length = g.board.length := by
    rw [hb2]; unfold setCell; rw [List.length_set, len1]
  have e2 : b2.countP p + (if p piece then 1 else 0)
      = b1.countP p + (if p 0 then 1 else 0) := by
    rw [hb2]
    unfold setCell
    rw [← hgd1]
    exact countP_set_add b1 _ 0 p (by rw [len1]; exact hlt2)
  have hgd2 : b2.getD (cellIdx (r + dr) (c + dc)) 0 = target := by
    rw [hb2]; unfold setCell
    rw [getD_set_ne _ _ _ _ hneSM]
    rw [hb1]; unfold setCell
    rw [getD_set_ne _ _ _ _ hneDM]
    rfl
  set b3 := setCell b2 (r + dr) (c + dc) 0 with hb3
  have len3 : b3.length = g.board.length := by
    rw [hb3]; unfold setCell; rw [List.length_set, len2]
  have e3 : b3.countP p + (if p target then 1 else 0)
      = b2.countP p + (if p 0 then 1 else 0) := by
    rw [hb3]
    unfold setCell
    rw [← hgd2]
    exact countP_set_add b2 _ 0 p (by rw [len2]; exact hlt3)
  have hgd3 : b3.getD (cellIdx (r + dr + dr) (c + dc + dc)) 0 = piece := by
    rw [hb3]; unfold setCell
    rw [getD_set_ne _ _ _ _ (fun he => hneDM he.symm)]
    rw [hb2]; unfold setCell
    rw [getD_set_ne _ _ _ _ (fun he => hneDS he.symm)]
    rw [hb1]; unfold setCell
    exact getD_set_self _ _ _ hlt1
  by_cases h1 : g.currentPlayer = 1 ∧ r + dr + dr = 7 ∧ piece = 1
  · rw [if_pos h1]
    have e4 : (setCell b3 (r + dr + dr) (c + dc + dc) 2).countP p
          + (if p piece then 1 else 0)
        = b3.countP p + (if p 2 then 1 else 0) := by
      unfold setCell
      rw [← hgd3]
      exact countP_set_add b3 _ 2 p (by rw [len3]; exact hlt1)
    have hpp : p 2 = p piece := by rw [h1.2.2]; exact hp21
    rw [hpp] at e4
    simp only [hp0] at e1 e2 e3
    by_cases ht : p target <;> by_cases hq : p piece <;>
      simp [ht, hq] at e1 e2 e3 e4 ⊢ <;> omega
  · rw [if_neg h1]
    by_cases h2 : g.currentPlayer = -1 ∧ r + dr + dr = 0 ∧ piece = -1
    · rw [if_pos h2]
      have e4 : (setCell b3 (r + dr + dr) (c + dc + dc) (-2)).countP p
            + (if p piece then 1 else 0)
          = b3.countP p + (if p (-2) then 1 else 0) := by
        unfold setCell
        rw [← hgd3]
        exact countP_set_add b3 _ (-2) p (by rw [len3]; exact hlt1)
      have hpp : p (-2) = p piece := by rw [h2.2.2]; exact hpn
      rw [hpp] at e4
      simp only [hp0] at e1 e2 e3
      by_cases ht : p target <;> by_cases hq : p piece <;>
        simp [ht, hq] at e1 e2 e3 e4 ⊢ <;> omega
    · rw [if_neg h2]
      simp only [hp0] at e1 e2 e3
      by_cases ht : p target <;> by_cases hq : p piece <;>
        simp [ht, hq] at e1 e2 e3 ⊢ <;> omega

end TC

namespace TC

/-- C7: every legal move preserves the mover's piece count; a quiet move also
preserves the opponent's count, while a capture reduces the opponent's count
by exactly one; consequently the total piece count never increases under a
legal move. -/
theorem move_conservation (g : Game) (m : Move)
    (hlen : g.board.length = 64) (hm : m ∈ get_valid_moves g) :
    sideCount (make_move g m).board g.currentPlayer
        = sideCount g.board g.currentPlayer ∧
    ((m.2.1 - m.1.1).natAbs ≤ 1 →
      sideCount (make_move g m).board (-g.currentPlayer)
        = sideCount g.board (-g.currentPlayer)) ∧
    ((m.2.1 - m.1.1).natAbs > 1 →
      sideCount (make_move g m).board (-g.currentPlayer) + 1
        = sideCount g.board (-g.currentPlayer)) ∧
    piecesPos (make_move g m).board + piecesNeg (make_move g m).board
      ≤ piecesPos g.board + piecesNeg g.board := by
  unfold get_valid_moves at hm
  by_cases hcap : (scanPieces g).2.isEmpty
  · rw [if_pos hcap] at hm
    obtain ⟨r, c, dr, dc, hb, hdr, hdc, hown, hmeq, hbnd, hdest⟩ := mem_scan_quiet g m hm
    subst hmeq
    have hstep : ((r + dr, c + dc) : Int × Int).1 - ((r, c) : Int × Int).1 = dr := by
      dsimp only
      ring
    have key : ∀ p : Int → Bool, p 0 = false → p 2 = p 1 → p (-2) = p (-1) →
        (make_move g ((r, c), (r + dr, c + dc))).board.countP p = g.board.countP p :=
      fun p hp0 hp21 hpn =>
        quiet_move_countP g r c dr dc hb hdr hbnd hdest hlen p hp0 hp21 hpn
    refine ⟨?_, fun _ => ?_, fun habs => ?_, ?_⟩
    · exact key _ (by simp) (decide_eq_decide.mpr (by omega)) (decide_eq_decide.mpr (by omega))
    · exact key _ (by simp) (decide_eq_decide.mpr (by omega)) (decide_eq_decide.mpr (by omega))
    · exfalso
      dsimp only at habs
      rcases hdr with h | h <;> omega
    · have h1 := key (fun x => decide (0 < x)) (by simp) (by decide) (by decide)
      have h2 := key (fun x => decide (x < 0)) (by simp) (by decide) (by decide)
      unfold piecesPos piecesNeg
      omega
  · rw [if_neg hcap] at hm
    obtain ⟨r, c, dr, dc, hb, hdr, hdc, hown, hmeq, hmid, htc, hbnd, hdest⟩ :=
      mem_scan_caps g m hm
    subst hmeq
    have hownQ : cell g.board r c * g.currentPlayer > 0 := hown
    set target := cell g.board (r + dr) (c + dc) with htgt
    have htne : target ≠ 0 := by
      intro h0
      rw [h0] at htc
      simp at htc
    have key : ∀ p : Int → Bool, p 0 = false → p 2 = p 1 → p (-2) = p (-1) →
        (make_move g ((r, c), (r + dr + dr, c + dc + dc))).board.countP p
            + (if p target then 1 else 0)
          = g.board.countP p :=
      fun p hp0 hp21 hpn =>
        capture_move_countP g r c dr dc hb hdr hmid hbnd hdest hlen p hp0 hp21 hpn
    have habs2 : (((r + dr + dr, c + dc + dc) : Int × Int).1 - ((r, c) : Int × Int).1).natAbs
        > 1 := by
      dsimp only
      rcases hdr with h | h <;> omega
    refine ⟨?_, fun hle => ?_, fun _ => ?_, ?_⟩
    · have h1 := key (fun x => decide (x * g.currentPlayer > 0)) (by simp)
        (decide_eq_decide.mpr (by omega)) (decide_eq_decide.mpr (by omega))
      have hz : (fun x => decide (x * g.currentPlayer > 0)) target = false := by
        simp only [decide_eq_false_iff_not]
        intro hgt
        linarith
      rw [hz] at h1
      simpa using h1
    · exfalso
      dsimp only at hle
      rcases hdr with h | h <;> omega
    · have h1 := key (fun x => decide (x * -g.currentPlayer > 0)) (by simp)
        (decide_eq_decide.mpr (by omega)) (decide_eq_decide.mpr (by omega))
      have hz : (fun x => decide (x * -g.currentPlayer > 0)) target = true := by
        simp only [decide_eq_true_eq]
        nlinarith
      rw [hz] at h1
      rw [if_pos rfl] at h1
      exact h1
    · have h1 := key (fun x => decide (0 < x)) (by simp) (by decide) (by decide)
      have h2 := key (fun x => decide (x < 0)) (by simp) (by decide) (by decide)
      unfold piecesPos piecesNeg
      by_cases hs : 0 < target
      · rw [show (fun x => decide (0 < x)) target = true from by simpa using hs] at h1
        rw [show (fun x => decide (x < 0)) target = false from by
          simp only [decide_eq_false_iff_not]; omega] at h2
        rw [if_pos rfl] at h1
        rw [if_neg (by simp)] at h2
        omega
      · have hs2 : target < 0 := by
          rcases lt_trichotomy target 0 with h3 | h3 | h3
          · exact h3
          · exact absurd h3 htne
          · exact absurd h3 hs
        rw [show (fun x => decide (0 < x)) target = false from by
          simp only [decide_eq_false_iff_not]; omega] at h1
        rw [show (fun x => decide (x < 0)) target = true from by simpa using hs2] at h2
        rw [if_neg (by simp)] at h1
        rw [if_pos rfl] at h2
        omega

/-- C7, witness: the conservation theorem applied to the mandatory capture
(2,2)-(4,4) of `captureGame`: player 1 keeps one piece and player 2 drops
from one piece to zero. -/
theorem move_conservation_witness :
    captureGame.board.length = 64 ∧
      ((2,2),(4,4)) ∈ get_valid_moves captureGame ∧
      sideCount (make_move captureGame ((2,2),(4,4))).board captureGame.currentPlayer
        = sideCount captureGame.board captureGame.currentPlayer ∧
      sideCount (make_move captureGame ((2,2),(4,4))).board (-captureGame.currentPlayer) + 1
        = sideCount captureGame.board (-captureGame.currentPlayer) := by
  have h := move_conservation captureGame ((2,2),(4,4))
    (by with_unfolding_all decide) (by with_unfolding_all decide)
  exact ⟨by with_unfolding_all decide, by with_unfolding_all decide, h.1,
    h.2.2.1 (by decide)⟩

end TC


namespace TC

/-- The root loop only adds searched states: the hit counter never
decreases. -/
theorem gbLoop_hits_mono (cfg : AIC) (g : Game) (ms : List Move) :
    ∀ bm bs a b st, st.hits ≤ (gbLoop cfg g ms bm bs a b st).2.hits := by
  induction ms with
  | nil =>
    intro bm bs a b st
    rw [gbLoop]
  | cons m rest ih =>
    intro bm bs a b st
    rw [gbLoop]
    simp only [minimax]
    have h1 := minimaxF_hits_mono cfg (fuelOf (make_move g m)) (make_move g m)
      (depthNext cfg.maxDepth (get_search_extension m (make_move g m))) a b false st
    exact le_trans h1 (ih _ _ _ _ _)

/-- A hit-free root loop is unchanged by disabling transposition lookups. -/
theorem gbLoop_noTT (cfg : AIC) (g : Game) (ms : List Move) :
    ∀ bm bs a b st, (gbLoop cfg g ms bm bs a b st).2.hits = st.hits →
      gbLoop { cfg with useTT := false } g ms bm bs a b st
        = gbLoop cfg g ms bm bs a b st := by
  induction ms with
  | nil =>
    intro bm bs a b st _
    rw [gbLoop, gbLoop]
  | cons m rest ih =>
    intro bm bs a b st h
    rw [gbLoop] at h
    rw [gbLoop, gbLoop]
    dsimp only at h ⊢
    simp only [minimax] at h ⊢
    have h1 := minimaxF_hits_mono cfg (fuelOf (make_move g m)) (make_move g m)
      (depthNext cfg.maxDepth (get_search_extension m (make_move g m))) a b false st
    have h2 := gbLoop_hits_mono cfg g rest
      (if XQ.lt bs (minimaxF cfg (fuelOf (make_move g m)) (make_move g m)
          (depthNext cfg.maxDepth (get_search_extension m (make_move g m)))
          a b false st).1 then m else bm)
      (if XQ.lt bs (minimaxF cfg (fuelOf (make_move g m)) (make_move g m)
          (depthNext cfg.maxDepth (get_search_extension m (make_move g m)))
          a b false st).1
        then (minimaxF cfg (fuelOf (make_move g m)) (make_move g m)
          (depthNext cfg.maxDepth (get_search_extension m (make_move g m)))
          a b false st).1 else bs)
      (XQ.qmax a
        (if XQ.lt bs (minimaxF cfg (fuelOf (make_move g m)) (make_move g m)
            (depthNext cfg.maxDepth (get_search_extension m (make_move g m)))
            a b false st).1
          then (minimaxF cfg (fuelOf (make_move g m)) (make_move g m)
            (depthNext cfg.maxDepth (get_search_extension m (make_move g m)))
            a b false st).1 else bs))
      b
      (minimaxF cfg (fuelOf (make_move g m)) (make_move g m)
        (depthNext cfg.maxDepth (get_search_extension m (make_move g m)))
        a b false st).2
    have hr2 : (minimaxF cfg (fuelOf (make_move g m)) (make_move g m)
        (depthNext cfg.maxDepth (get_search_extension m (make_move g m)))
        a b false st).2.hits = st.hits := by omega
    have hF := minimaxF_noTT cfg (fuelOf (make_move g m)) (make_move g m)
      (depthNext cfg.maxDepth (get_search_extension m (make_move g m))) a b false st hr2
    simp only [hF]
    exact ih _ _ _ _ _ (by omega)

/-- C5: amended transposition-soundness. With the jitter stream fixed,
whenever `get_best_move` with the table on records no transposition hit (no
lookup returned early), disabling the table returns the same move: the table
is then write-only memoisation. The companion counterexample shows that when
a hit does occur the two searches can return different root moves, so the
hit-free qualification is necessary. -/
theorem table_only_performance (cfg : AIC) (g : Game) (st0 : SState)
    (h : (get_best_move cfg g st0).2.hits = 0) :
    (get_best_move { cfg with useTT := false } g st0).1
      = (get_best_move cfg g st0).1 := by
  rw [get_best_move] at h
  rw [get_best_move, get_best_move]
  dsimp only at h ⊢
  rcases hmv : get_valid_moves g with _ | ⟨m0, rest⟩
  · rfl
  · rw [hmv] at h
    dsimp only at h ⊢
    by_cases hone : rest.isEmpty = true
    · rw [if_pos hone] at h ⊢
      rw [if_pos hone]
    · rw [if_neg hone] at h ⊢
      rw [if_neg hone]
      have hg := gbLoop_noTT cfg g (order_moves (m0 :: rest) g) m0 XQ.ninf XQ.ninf
        XQ.pinf { st0 with tt := [], hits := 0 } h
      rw [hg]

end TC

namespace TC

/-- C5 witness: the depth-1 search from `c10game` records no transposition
hit, so the theorem applies: searching with the table disabled returns the
same root move. -/
theorem table_only_performance_witness :
    (get_best_move cfg1z c10game stZero).2.hits = 0 ∧
      (get_best_move { cfg1z with useTT := false } c10game stZero).1
        = (get_best_move cfg1z c10game stZero).1 :=
  ⟨by with_unfolding_all decide,
    table_only_performance cfg1z c10game stZero (by with_unfolding_all decide)⟩

set_option maxRecDepth 4000000 in
set_option maxHeartbeats 40000000 in
/-- C5 counterexample: a depth-3 search from `gC5` (two player-1 men, one
player-2 man, constant-zero jitter) returns different root moves with the
transposition table on (`cfgT3`) and off (`cfgF3`): depth-0 entries cache
window-clamped quiescence values as exact, so later probes under other
windows return early with scores a fresh search would not produce. -/
theorem table_changes_move :
    (get_best_move cfgT3 gC5 stZero).1 = some ((1, 1), (2, 2)) ∧
      (get_best_move cfgF3 gC5 stZero).1 = some ((1, 5), (2, 4)) := by
  with_unfolding_all decide

end TC

